import Mathlib

/-!
# A verification of the `rbset` range-based set

The Rust crate stores a set of integers as a sorted `Vec<(T, T)>` of closed,
disjoint, non-adjacent ranges.  We embed the library shallowly: the scalar
type `T` is modelled by `Int`, the vector of ranges by `List (Int × Int)`,
and each method of `RBSet<T>` (and the fuzz harness's `consecutive_slices`)
by a Lean function following the source control flow (the `for` loops become
recursions that thread the loop indices and the `break`/`return` outcomes).
-/

namespace RBSet

/-- Outcome of the scan loop inside `RBSet::insert`: either the early
`return` (value already inside an existing range), or loop exit carrying the
possibly-mutated range list together with the `insert_pos` and `check_pos`
variables of the source. -/
inductive ScanResult where
  | ret : ScanResult
  | brk : List (Int × Int) → Option Nat → Option Nat → ScanResult
deriving DecidableEq, Repr

/-- The `for (idx, (start, end)) in self.ranges.iter_mut().enumerate()` loop
of `RBSet::insert` (src/src/lib.rs lines 26-49).  `lenR` is the
`ranges_len` captured before the loop, `idx` the enumeration index and
`ipos` the current value of `insert_pos`. -/
def insertScan (value : Int) (lenR : Nat) :
    List (Int × Int) → Nat → Option Nat → ScanResult
  | [], _, ipos => .brk [] ipos none
  | (s, e) :: rest, idx, ipos =>
    if value ≥ s then
      if value ≤ e then .ret
      else if value = e + 1 then .brk ((s, e + 1) :: rest) ipos (some idx)
      else
        match insertScan value lenR rest (idx + 1)
            (if idx = lenR - 1 then some lenR else ipos) with
        | .ret => .ret
        | .brk rs ip cp => .brk ((s, e) :: rs) ip cp
    else if value = s - 1 then
      .brk ((s - 1, e) :: rest) ipos (if idx > 0 then some (idx - 1) else none)
    else
      .brk ((s, e) :: rest) (some idx) none

/-- The `if let Some(check_pos) = check_pos` block of `RBSet::insert`
(src/src/lib.rs lines 55-64): coalesce ranges `cp` and `cp + 1` when they
became adjacent. -/
def mergeCheck (rs : List (Int × Int)) (cp : Nat) : List (Int × Int) :=
  if rs.length ≤ 1 ∨ cp ≥ rs.length - 1 then rs
  else if (rs.getD cp (0, 0)).2 + 1 = (rs.getD (cp + 1) (0, 0)).1 then
    (rs.set cp ((rs.getD cp (0, 0)).1, (rs.getD (cp + 1) (0, 0)).2)).eraseIdx (cp + 1)
  else rs

/-- `RBSet::insert` (src/src/lib.rs lines 19-66). -/
def insert (value : Int) (ranges : List (Int × Int)) : List (Int × Int) :=
  if ranges.isEmpty then [(value, value)]
  else
    match insertScan value ranges.length ranges 0 none with
    | .ret => ranges
    | .brk rs ipos cpos =>
      let rs2 := match ipos with
        | some p => rs.insertIdx p (value, value)
        | none => rs
      match cpos with
      | some cp => mergeCheck rs2 cp
      | none => rs2

/-- Outcome of the scan loop inside `RBSet::remove`: `ret` is the early
`return` (with the mutated list), `done` is normal loop termination carrying
the final value of the `add_range` variable. -/
inductive RemScan where
  | ret : List (Int × Int) → RemScan
  | done : List (Int × Int) → Option (Nat × Int) → RemScan
deriving DecidableEq, Repr

/-- The scan loop of `RBSet::remove` (src/src/lib.rs lines 70-89).  Note the
interior-split branch records `add_range` and keeps scanning (the source has
no `return` there). -/
def removeScan (value : Int) :
    List (Int × Int) → Nat → Option (Nat × Int) → RemScan
  | [], _, ar => .done [] ar
  | (s, e) :: rest, idx, ar =>
    if value = s then
      if value = e then .ret rest
      else .ret ((s + 1, e) :: rest)
    else if value = e then .ret ((s, e - 1) :: rest)
    else if value > s ∧ value < e then
      match removeScan value rest (idx + 1) (some (idx + 1, e)) with
      | .ret rs => .ret ((s, value - 1) :: rs)
      | .done rs ar2 => .done ((s, value - 1) :: rs) ar2
    else
      match removeScan value rest (idx + 1) ar with
      | .ret rs => .ret ((s, e) :: rs)
      | .done rs ar2 => .done ((s, e) :: rs) ar2

/-- `RBSet::remove` (src/src/lib.rs lines 68-93). -/
def remove (value : Int) (ranges : List (Int × Int)) : List (Int × Int) :=
  match removeScan value ranges 0 none with
  | .ret rs => rs
  | .done rs none => rs
  | .done rs (some (idx, oldEnd)) => rs.insertIdx idx (value + 1, oldEnd)

/-- `RBSet::clear` (src/src/lib.rs lines 95-97). -/
def clear (_ranges : List (Int × Int)) : List (Int × Int) := []

/-- `RBSet::is_empty` (src/src/lib.rs lines 99-101). -/
def isEmpty (ranges : List (Int × Int)) : Bool := ranges.isEmpty

/-- `RBSet::contains` (src/src/lib.rs lines 103-110). -/
def contains (value : Int) : List (Int × Int) → Bool
  | [] => false
  | (s, e) :: rest =>
    if value ≥ s ∧ value ≤ e then true else contains value rest

/-- Modelled from the spec: the fuzz harness calls `set.len()`
(src/fuzz/fuzz_targets/fuzz_target.rs line 42) but `RBSet` in
src/src/lib.rs exposes no such method; spec §4.3 defines `length` as the
sum over entries of `(end − start + 1)`. -/
def len (ranges : List (Int × Int)) : Int :=
  ranges.foldl (fun acc p => acc + (p.2 - p.1 + 1)) 0

/-- The state of `RBSetIter` (src/src/lib.rs lines 140-144): the borrowed
range list, the `pos` index and the `last_yielded` option. -/
structure Iter where
  ranges : List (Int × Int)
  pos : Nat
  lastYielded : Option Int
deriving DecidableEq, Repr

/-- `<RBSetIter as Iterator>::next` (src/src/lib.rs lines 149-174),
returning the yielded item together with the successor iterator state. -/
def Iter.next (it : Iter) : Option Int × Iter :=
  if it.pos ≥ it.ranges.length then (none, it)
  else
    match it.lastYielded with
    | some x =>
      if x = (it.ranges.getD it.pos (0, 0)).2 then
        if it.pos + 1 < it.ranges.length then
          (some (it.ranges.getD (it.pos + 1) (0, 0)).1,
            ⟨it.ranges, it.pos + 1, some (it.ranges.getD (it.pos + 1) (0, 0)).1⟩)
        else (none, ⟨it.ranges, it.pos + 1, some x⟩)
      else (some (x + 1), ⟨it.ranges, it.pos, some (x + 1)⟩)
    | none =>
      (some (it.ranges.getD 0 (0, 0)).1,
        ⟨it.ranges, it.pos, some (it.ranges.getD 0 (0, 0)).1⟩)

/-- `RBSet::iter` (src/src/lib.rs lines 112-118). -/
def iter (ranges : List (Int × Int)) : Iter := ⟨ranges, 0, none⟩

/-- Drive the iterator at most `n` steps, collecting the yielded values and
stopping at the first `None`. -/
def runIter : Iter → Nat → List Int
  | _, 0 => []
  | it, n + 1 =>
    match it.next with
    | (none, _) => []
    | (some v, it2) => v :: runIter it2 n

/-- The iterator state after `n` calls to `next`. -/
def stepN : Iter → Nat → Iter
  | it, 0 => it
  | it, n + 1 => stepN it.next.2 n

/-- The `for i in 1..data.len()` loop of `consecutive_slices`
(src/fuzz/fuzz_targets/fuzz_target.rs lines 85-90), threading `slice_start`
and `result`; returns their final values. -/
def csLoop (data : List Int) (i ss : Nat) (res : List (Int × Int)) :
    Nat × List (Int × Int) :=
  if h : i < data.length then
    if data.getD (i - 1) 0 + 1 ≠ data.getD i 0 then
      csLoop data (i + 1) i (res ++ [(data.getD ss 0, data.getD (i - 1) 0)])
    else csLoop data (i + 1) ss res
  else (ss, res)
termination_by data.length - i
decreasing_by all_goals omega

/-- `consecutive_slices` (src/fuzz/fuzz_targets/fuzz_target.rs
lines 82-95). -/
def consecutive_slices (data : List Int) : List (Int × Int) :=
  let r := csLoop data 1 0 []
  if data.isEmpty then r.2
  else r.2 ++ [(data.getD r.1 0, data.getD (data.length - 1) 0)]

/-! ## The canonical-form invariant and derived notions -/

/-- The gap condition between two consecutive entries: disjoint and
non-adjacent. -/
def Gap (a b : Int × Int) : Prop := a.2 + 1 < b.1

instance : DecidableRel Gap := fun a b =>
  inferInstanceAs (Decidable (a.2 + 1 < b.1))

/-- The canonical-form invariant of spec §3: every entry has
`start ≤ end`, and consecutive entries are disjoint and non-adjacent
(which forces the list to be sorted ascending by `start`). -/
def Canonical (rs : List (Int × Int)) : Prop :=
  (∀ p ∈ rs, p.1 ≤ p.2) ∧ rs.Chain' Gap

/-- A kernel-reducible decision procedure for `Chain' Gap` (Mathlib's
generic instance is defined by tactics and does not reduce under
`decide`). -/
def chainGapDec : (l : List (Int × Int)) → Decidable (l.Chain' Gap)
  | [] => isTrue List.chain'_nil
  | [a] => isTrue (List.chain'_singleton a)
  | a :: b :: t =>
    match inferInstanceAs (Decidable (Gap a b)), chainGapDec (b :: t) with
    | isTrue h1, isTrue h2 => isTrue (List.chain'_cons.2 ⟨h1, h2⟩)
    | isFalse h1, _ => isFalse (fun hc => h1 (List.chain'_cons.1 hc).1)
    | _, isFalse h2 => isFalse (fun hc => h2 (List.chain'_cons.1 hc).2)

instance : DecidablePred Canonical := fun rs =>
  @instDecidableAnd _ _ (List.decidableBAll _ rs) (chainGapDec rs)

/-- The closed integer interval `[s, e]` as a list. -/
def intRange (s e : Int) : List Int :=
  (List.range (e + 1 - s).toNat).map (fun k : Nat => s + (k : Int))

/-- All members of the set, entry by entry. -/
def elems : List (Int × Int) → List Int
  | [] => []
  | p :: rest => intRange p.1 p.2 ++ elems rest

/-! ## Checked-arithmetic variants (for the overflow-safety claim)

`insertChk` / `removeChk` follow `insert` / `remove` line by line, but every
`+ T::one()` / `- T::one()` the source performs goes through `succChk` /
`predChk`, which fail (return `none`) exactly when the argument is the
maximum `hi` (resp. minimum `lo`) of the scalar's domain. -/

/-- Checked successor: fails on the maximal value `hi`. -/
def succChk (hi x : Int) : Option Int := if x < hi then some (x + 1) else none

/-- Checked predecessor: fails on the minimal value `lo`. -/
def predChk (lo x : Int) : Option Int := if lo < x then some (x - 1) else none

/-- Checked variant of `insertScan`. -/
def insertScanChk (lo hi value : Int) (lenR : Nat) :
    List (Int × Int) → Nat → Option Nat → Option ScanResult
  | [], _, ipos => some (.brk [] ipos none)
  | (s, e) :: rest, idx, ipos =>
    if value ≥ s then
      if value ≤ e then some .ret
      else
        (succChk hi e).bind (fun e1 =>
          if value = e1 then some (.brk ((s, e1) :: rest) ipos (some idx))
          else
            (insertScanChk lo hi value lenR rest (idx + 1)
                (if idx = lenR - 1 then some lenR else ipos)).bind (fun r =>
              match r with
              | .ret => some .ret
              | .brk rs ip cp => some (.brk ((s, e) :: rs) ip cp)))
    else
      (predChk lo s).bind (fun s1 =>
        if value = s1 then
          some (.brk ((s1, e) :: rest) ipos
            (if idx > 0 then some (idx - 1) else none))
        else some (.brk ((s, e) :: rest) (some idx) none))

/-- Checked variant of `mergeCheck`. -/
def mergeCheckChk (hi : Int) (rs : List (Int × Int)) (cp : Nat) :
    Option (List (Int × Int)) :=
  if rs.length ≤ 1 ∨ cp ≥ rs.length - 1 then some rs
  else
    (succChk hi (rs.getD cp (0, 0)).2).bind (fun y =>
      if y = (rs.getD (cp + 1) (0, 0)).1 then
        some ((rs.set cp
          ((rs.getD cp (0, 0)).1, (rs.getD (cp + 1) (0, 0)).2)).eraseIdx (cp + 1))
      else some rs)

/-- Checked variant of `insert`. -/
def insertChk (lo hi value : Int) (ranges : List (Int × Int)) :
    Option (List (Int × Int)) :=
  if ranges.isEmpty then some [(value, value)]
  else
    (insertScanChk lo hi value ranges.length ranges 0 none).bind (fun r =>
      match r with
      | .ret => some ranges
      | .brk rs ipos cpos =>
        let rs2 := match ipos with
          | some p => rs.insertIdx p (value, value)
          | none => rs
        match cpos with
        | some cp => mergeCheckChk hi rs2 cp
        | none => some rs2)

/-- Checked variant of `removeScan`. -/
def removeScanChk (lo hi value : Int) :
    List (Int × Int) → Nat → Option (Nat × Int) → Option RemScan
  | [], _, ar => some (.done [] ar)
  | (s, e) :: rest, idx, ar =>
    if value = s then
      if value = e then some (.ret rest)
      else (succChk hi s).bind (fun s1 => some (.ret ((s1, e) :: rest)))
    else if value = e then
      (predChk lo e).bind (fun e1 => some (.ret ((s, e1) :: rest)))
    else if value > s ∧ value < e then
      (predChk lo value).bind (fun v1 =>
        (removeScanChk lo hi value rest (idx + 1) (some (idx + 1, e))).bind (fun r =>
          match r with
          | .ret rs => some (.ret ((s, v1) :: rs))
          | .done rs ar2 => some (.done ((s, v1) :: rs) ar2)))
    else
      (removeScanChk lo hi value rest (idx + 1) ar).bind (fun r =>
        match r with
        | .ret rs => some (.ret ((s, e) :: rs))
        | .done rs ar2 => some (.done ((s, e) :: rs) ar2))

/-- Checked variant of `remove`. -/
def removeChk (lo hi value : Int) (ranges : List (Int × Int)) :
    Option (List (Int × Int)) :=
  (removeScanChk lo hi value ranges 0 none).bind (fun r =>
    match r with
    | .ret rs => some rs
    | .done rs none => some rs
    | .done rs (some (idx, oldEnd)) =>
      (succChk hi value).bind (fun v1 => some (rs.insertIdx idx (v1, oldEnd))))

/-- All range bounds lie in the scalar domain `[lo, hi]`. -/
def InBounds (lo hi : Int) (rs : List (Int × Int)) : Prop :=
  ∀ p ∈ rs, lo ≤ p.1 ∧ p.1 ≤ hi ∧ lo ≤ p.2 ∧ p.2 ≤ hi

instance (lo hi : Int) : DecidablePred (InBounds lo hi) := fun rs =>
  inferInstanceAs
    (Decidable (∀ p ∈ rs, lo ≤ p.1 ∧ p.1 ≤ hi ∧ lo ≤ p.2 ∧ p.2 ≤ hi))

/-! ## The differential-test model (spec §6, fuzz target)

The fuzz harness drives an `RBSet` and a reference `HashSet` in parallel
with insert/remove actions; the reference set is modelled by a
`Finset Int`. -/

/-- An insert or remove action of the fuzz harness. -/
inductive Action where
  | ins : Int → Action
  | rem : Int → Action
deriving DecidableEq, Repr

/-- One action applied to the `RBSet`. -/
def stepRB (rs : List (Int × Int)) (a : Action) : List (Int × Int) :=
  match a with
  | .ins v => insert v rs
  | .rem v => remove v rs

/-- One action applied to the reference set of elements (the fuzz
harness's `HashSet`). -/
def stepRef (fs : Finset Int) (a : Action) : Finset Int :=
  match a with
  | .ins v => Insert.insert v fs
  | .rem v => fs.erase v

/-- Run a sequence of actions on the `RBSet`, starting from the empty set. -/
def applyRB (acts : List Action) : List (Int × Int) :=
  acts.foldl stepRB []

/-- Run the same actions on the reference set of elements. -/
def applyRef (acts : List Action) : Finset Int :=
  acts.foldl stepRef ∅

/-- The sets reachable from empty by `insert`, `remove` and `clear`. -/
inductive Reachable : List (Int × Int) → Prop where
  | empty : Reachable []
  | ins (v : Int) {rs : List (Int × Int)} : Reachable rs → Reachable (insert v rs)
  | rem (v : Int) {rs : List (Int × Int)} : Reachable rs → Reachable (remove v rs)
  | clr {rs : List (Int × Int)} : Reachable rs → Reachable (clear rs)

/-! ## Reference implementations used inside the proofs

`insertR` and `removeR` are clean structural recursions; the development
proves that on canonical inputs the source algorithms compute exactly these
functions, and then reasons about them. -/

/-- Structural description of `insert` on canonical lists. -/
def insertR (v : Int) : List (Int × Int) → List (Int × Int)
  | [] => [(v, v)]
  | (s, e) :: rest =>
    if v + 1 < s then (v, v) :: (s, e) :: rest
    else if v + 1 = s then (v, e) :: rest
    else if v ≤ e then (s, e) :: rest
    else if v = e + 1 then
      match rest with
      | (s2, e2) :: rest2 =>
        if v + 1 = s2 then (s, e2) :: rest2 else (s, v) :: (s2, e2) :: rest2
      | [] => [(s, v)]
    else (s, e) :: insertR v rest

/-- Structural description of `remove` on canonical lists. -/
def removeR (v : Int) : List (Int × Int) → List (Int × Int)
  | [] => []
  | (s, e) :: rest =>
    if v = s then
      if v = e then rest else (s + 1, e) :: rest
    else if v = e then (s, e - 1) :: rest
    else if s < v ∧ v < e then (s, v - 1) :: (v + 1, e) :: rest
    else (s, e) :: removeR v rest

/-- Structural description of the `consecutive_slices` loop: `s` is the
start of the open run, `last` its latest element, and the argument list the
data not yet scanned. -/
def csGo (s last : Int) : List Int → List (Int × Int)
  | [] => [(s, last)]
  | y :: ys => if last + 1 = y then csGo s y ys else (s, last) :: csGo y y ys

/-- Structural description of `consecutive_slices`. -/
def csR : List Int → List (Int × Int)
  | [] => []
  | x :: xs => csGo x x xs

/-- `v` matches none of the three cases of the `remove` scan at this
entry. -/
def NoMatch (v : Int) (p : Int × Int) : Prop :=
  v ≠ p.1 ∧ v ≠ p.2 ∧ ¬(v > p.1 ∧ v < p.2)

/-- Simulation invariant between an iterator state and the list of values
it has yet to yield. -/
def IterInv (it : Iter) (target : List Int) : Prop :=
  (it.lastYielded = none ∧ it.pos = 0 ∧ Canonical it.ranges ∧
    target = elems it.ranges)
  ∨ (∃ x, it.lastYielded = some x ∧ Canonical it.ranges ∧
      it.pos < it.ranges.length ∧
      (it.ranges.getD it.pos (0, 0)).1 ≤ x ∧
      x ≤ (it.ranges.getD it.pos (0, 0)).2 ∧
      target = intRange (x + 1) (it.ranges.getD it.pos (0, 0)).2 ++
        elems (it.ranges.drop (it.pos + 1)))
  ∨ (it.ranges.length ≤ it.pos ∧ target = [])

/-! ## Basic lemmas about `contains` and `Canonical` -/

theorem contains_cons (w : Int) (p : Int × Int) (l : List (Int × Int)) :
    contains w (p :: l) = (decide (p.1 ≤ w ∧ w ≤ p.2) || contains w l) := by
  cases p with
  | mk s e =>
    by_cases h : w ≥ s ∧ w ≤ e
    · simp only [contains, if_pos h]
      have : s ≤ w ∧ w ≤ e := h
      simp [this]
    · simp only [contains, if_neg h]
      have : ¬(s ≤ w ∧ w ≤ e) := h
      simp [this]

theorem contains_nil (w : Int) : contains w [] = false := rfl

theorem contains_cons' (w s e : Int) (l : List (Int × Int)) :
    contains w ((s, e) :: l) = (decide (s ≤ w ∧ w ≤ e) || contains w l) :=
  contains_cons w (s, e) l

theorem contains_eq_true_iff (w : Int) (l : List (Int × Int)) :
    contains w l = true ↔ ∃ p ∈ l, p.1 ≤ w ∧ w ≤ p.2 := by
  induction l with
  | nil => simp [contains]
  | cons p t ih =>
    rw [contains_cons]
    simp only [Bool.or_eq_true, decide_eq_true_eq, ih, List.mem_cons]
    constructor
    · rintro (h | ⟨q, hq, h1, h2⟩)
      · exact ⟨p, Or.inl rfl, h.1, h.2⟩
      · exact ⟨q, Or.inr hq, h1, h2⟩
    · rintro ⟨q, hq | hq, h1, h2⟩
      · exact Or.inl ⟨hq ▸ h1, hq ▸ h2⟩
      · exact Or.inr ⟨q, hq, h1, h2⟩

theorem contains_append (w : Int) (a b : List (Int × Int)) :
    contains w (a ++ b) = (contains w a || contains w b) := by
  induction a with
  | nil => simp [contains]
  | cons p t ih => rw [List.cons_append, contains_cons, contains_cons, ih, Bool.or_assoc]

theorem canonical_nil : Canonical [] := ⟨by simp, List.chain'_nil⟩

theorem canonical_cons_iff (p : Int × Int) (l : List (Int × Int)) :
    Canonical (p :: l) ↔ p.1 ≤ p.2 ∧ (∀ q ∈ l.head?, p.2 + 1 < q.1) ∧ Canonical l := by
  simp only [Canonical, List.chain'_cons', List.mem_cons, forall_eq_or_imp, Gap]
  tauto

theorem canonical_tail {p : Int × Int} {l : List (Int × Int)}
    (h : Canonical (p :: l)) : Canonical l :=
  ((canonical_cons_iff p l).1 h).2.2

theorem canonical_head_le_snd {p : Int × Int} {l : List (Int × Int)}
    (h : Canonical (p :: l)) : p.1 ≤ p.2 :=
  ((canonical_cons_iff p l).1 h).1

theorem canonical_gap_head {t : List (Int × Int)} :
    ∀ (s e : Int), Canonical ((s, e) :: t) → ∀ p ∈ t, e + 1 < p.1 := by
  induction t with
  | nil => intro s e _ p hp; simp at hp
  | cons q t2 ih =>
    intro s e hc p hp
    have h1 := (canonical_cons_iff (s, e) (q :: t2)).1 hc
    have hgap : e + 1 < q.1 := by
      have := h1.2.1 q
      simpa using this
    rcases List.mem_cons.1 hp with rfl | hp2
    · exact hgap
    · have hq : Canonical ((q.1, q.2) :: t2) := by
        simpa using h1.2.2
      have := ih q.1 q.2 hq p hp2
      have hqle : q.1 ≤ q.2 := canonical_head_le_snd h1.2.2
      omega

theorem canonical_contains_lower {s e w : Int} {t : List (Int × Int)}
    (hc : Canonical ((s, e) :: t)) (hw : contains w ((s, e) :: t) = true) :
    s ≤ w := by
  rcases (contains_eq_true_iff w _).1 hw with ⟨p, hp, h1, h2⟩
  rcases List.mem_cons.1 hp with rfl | hp2
  · exact h1
  · have := canonical_gap_head s e hc p hp2
    have := canonical_head_le_snd hc
    omega

theorem canonical_contains_tail_gt {s e w : Int} {t : List (Int × Int)}
    (hc : Canonical ((s, e) :: t)) (hw : contains w t = true) :
    e + 1 < w := by
  rcases (contains_eq_true_iff w _).1 hw with ⟨p, hp, h1, h2⟩
  have := canonical_gap_head s e hc p hp
  omega

theorem canonical_no_longer_head {s e1 e2 : Int} {t1 t2 : List (Int × Int)}
    (ha : Canonical ((s, e1) :: t1)) (hb : Canonical ((s, e2) :: t2))
    (hw : ∀ w, contains w ((s, e1) :: t1) = contains w ((s, e2) :: t2))
    (hlt : e1 < e2) : False := by
  have hb1 : contains (e1 + 1) ((s, e2) :: t2) = true := by
    rw [contains_cons]
    have hse : s ≤ e1 := canonical_head_le_snd ha
    have : s ≤ e1 + 1 ∧ e1 + 1 ≤ e2 := by omega
    simp [this]
  have ha1 : contains (e1 + 1) ((s, e1) :: t1) = true := (hw (e1 + 1)).symm ▸ hb1
  rw [contains_cons] at ha1
  rcases Bool.or_eq_true_iff.1 ha1 with h | h
  · simp only [decide_eq_true_eq] at h; omega
  · have := canonical_contains_tail_gt ha h
    omega

/-- A canonical list is determined by its membership function: the
canonical form is unique. -/
theorem canonical_ext : ∀ (a b : List (Int × Int)), Canonical a → Canonical b →
    (∀ w, contains w a = contains w b) → a = b := by
  intro a
  induction a with
  | nil =>
    intro b _ hcb hw
    cases b with
    | nil => rfl
    | cons q t =>
      exfalso
      have : contains q.1 (q :: t) = true := by
        rw [contains_cons]
        have := canonical_head_le_snd hcb
        simp [this]
      rw [← hw q.1] at this
      simp [contains] at this
  | cons p t1 ih =>
    intro b hca hcb hw
    cases b with
    | nil =>
      exfalso
      have : contains p.1 (p :: t1) = true := by
        rw [contains_cons]
        have := canonical_head_le_snd hca
        simp [this]
      rw [hw p.1] at this
      simp [contains] at this
    | cons q t2 =>
      obtain ⟨s1, e1⟩ := p
      obtain ⟨s2, e2⟩ := q
      have hmem1 : contains s1 ((s1, e1) :: t1) = true := by
        rw [contains_cons]
        have := canonical_head_le_snd hca
        simp at this
        simp [this]
      have hmem2 : contains s2 ((s2, e2) :: t2) = true := by
        rw [contains_cons]
        have := canonical_head_le_snd hcb
        simp at this
        simp [this]
      have hs12 : s2 ≤ s1 := canonical_contains_lower hcb ((hw s1) ▸ hmem1)
      have hs21 : s1 ≤ s2 := canonical_contains_lower hca ((hw s2).symm ▸ hmem2)
      have hs : s1 = s2 := le_antisymm hs21 hs12
      subst hs
      have he : e1 = e2 := by
        rcases lt_trichotomy e1 e2 with h | h | h
        · exact absurd (canonical_no_longer_head hca hcb hw h) (fun f => f)
        · exact h
        · exact absurd (canonical_no_longer_head hcb hca (fun w => (hw w).symm) h)
            (fun f => f)
      subst he
      have htail : ∀ w, contains w t1 = contains w t2 := by
        intro w
        by_cases hwe : e1 < w
        · have h1 := hw w
          rw [contains_cons, contains_cons] at h1
          have : ¬(s1 ≤ w ∧ w ≤ e1) := by omega
          simpa [this] using h1
        · have h1 : contains w t1 = false := by
            by_contra hne
            have := canonical_contains_tail_gt hca (by
              cases h : contains w t1 with
              | false => exact absurd h hne
              | true => rfl)
            omega
          have h2 : contains w t2 = false := by
            by_contra hne
            have := canonical_contains_tail_gt hcb (by
              cases h : contains w t2 with
              | false => exact absurd h hne
              | true => rfl)
            omega
          rw [h1, h2]
      exact congrArg _ (ih t2 (canonical_tail hca) (canonical_tail hcb) htail)

/-! ## List index helpers (operations at an offset past a prefix) -/

theorem getD_append_len {α : Type} (pre l : List α) (i : Nat) (d : α) :
    (pre ++ l).getD (pre.length + i) d = l.getD i d := by
  induction pre with
  | nil => simp
  | cons a pre2 ih =>
    have hn : (a :: pre2).length + i = (pre2.length + i) + 1 := by
      simp only [List.length_cons]; omega
    rw [hn, List.cons_append, List.getD_cons_succ, ih]

theorem set_append_len {α : Type} (pre l : List α) (i : Nat) (x : α) :
    (pre ++ l).set (pre.length + i) x = pre ++ l.set i x := by
  induction pre with
  | nil => simp
  | cons a pre2 ih =>
    have hn : (a :: pre2).length + i = (pre2.length + i) + 1 := by
      simp only [List.length_cons]; omega
    rw [hn, List.cons_append]
    show a :: (pre2 ++ l).set (pre2.length + i) x = a :: (pre2 ++ l.set i x)
    rw [ih]

theorem eraseIdx_append_len {α : Type} (pre l : List α) (i : Nat) :
    (pre ++ l).eraseIdx (pre.length + i) = pre ++ l.eraseIdx i := by
  induction pre with
  | nil => simp
  | cons a pre2 ih =>
    have hn : (a :: pre2).length + i = (pre2.length + i) + 1 := by
      simp only [List.length_cons]; omega
    rw [hn, List.cons_append, List.eraseIdx_cons_succ, ih, List.cons_append]

theorem insertIdx_append_len {α : Type} (pre l : List α) (i : Nat) (x : α) :
    (pre ++ l).insertIdx (pre.length + i) x = pre ++ l.insertIdx i x := by
  induction pre with
  | nil => simp
  | cons a pre2 ih =>
    have hn : (a :: pre2).length + i = (pre2.length + i) + 1 := by
      simp only [List.length_cons]; omega
    rw [hn, List.cons_append, List.insertIdx_succ_cons, ih, List.cons_append]

/-! ## Properties of the structural insert `insertR` -/

theorem insertR_nil (v : Int) : insertR v [] = [(v, v)] := rfl

theorem insertR_new {v s : Int} (e : Int) (t : List (Int × Int))
    (h1 : v + 1 < s) : insertR v ((s, e) :: t) = (v, v) :: (s, e) :: t := by
  simp only [insertR]
  rw [if_pos h1]

theorem insertR_extlo {v s : Int} (e : Int) (t : List (Int × Int))
    (h1 : ¬(v + 1 < s)) (h2 : v + 1 = s) :
    insertR v ((s, e) :: t) = (v, e) :: t := by
  simp only [insertR]
  rw [if_neg h1, if_pos h2]

theorem insertR_present {v s e : Int} (t : List (Int × Int))
    (h1 : ¬(v + 1 < s)) (h2 : ¬(v + 1 = s)) (h3 : v ≤ e) :
    insertR v ((s, e) :: t) = (s, e) :: t := by
  simp only [insertR]
  rw [if_neg h1, if_neg h2, if_pos h3]

theorem insertR_exthi_nil {v s e : Int}
    (h1 : ¬(v + 1 < s)) (h2 : ¬(v + 1 = s)) (h3 : ¬(v ≤ e)) (h4 : v = e + 1) :
    insertR v [(s, e)] = [(s, v)] := by
  simp only [insertR]
  rw [if_neg h1, if_neg h2, if_neg h3, if_pos h4]

theorem insertR_exthi_merge {v s e s2 e2 : Int} (t2 : List (Int × Int))
    (h1 : ¬(v + 1 < s)) (h2 : ¬(v + 1 = s)) (h3 : ¬(v ≤ e)) (h4 : v = e + 1)
    (h5 : v + 1 = s2) :
    insertR v ((s, e) :: (s2, e2) :: t2) = (s, e2) :: t2 := by
  simp only [insertR]
  rw [if_neg h1, if_neg h2, if_neg h3, if_pos h4, if_pos h5]

theorem insertR_exthi_nomerge {v s e s2 e2 : Int} (t2 : List (Int × Int))
    (h1 : ¬(v + 1 < s)) (h2 : ¬(v + 1 = s)) (h3 : ¬(v ≤ e)) (h4 : v = e + 1)
    (h5 : ¬(v + 1 = s2)) :
    insertR v ((s, e) :: (s2, e2) :: t2) = (s, v) :: (s2, e2) :: t2 := by
  simp only [insertR]
  rw [if_neg h1, if_neg h2, if_neg h3, if_pos h4, if_neg h5]

theorem insertR_skip {v s e : Int} (t : List (Int × Int))
    (h1 : ¬(v + 1 < s)) (h2 : ¬(v + 1 = s)) (h3 : ¬(v ≤ e)) (h4 : ¬(v = e + 1)) :
    insertR v ((s, e) :: t) = (s, e) :: insertR v t := by
  simp only [insertR]
  rw [if_neg h1, if_neg h2, if_neg h3, if_neg h4]

theorem canonical_singleton {s e : Int} (h : s ≤ e) : Canonical [(s, e)] := by
  constructor
  · intro p hp
    simp only [List.mem_singleton] at hp
    subst hp
    exact h
  · simp

theorem insertR_head (v : Int) (l : List (Int × Int)) :
    ∃ c t, insertR v l = c :: t ∧
      (c.1 = v ∨ ∃ q t2, l = q :: t2 ∧ c.1 = q.1) := by
  cases l with
  | nil => exact ⟨(v, v), [], rfl, Or.inl rfl⟩
  | cons q t =>
    obtain ⟨s, e⟩ := q
    by_cases h1 : v + 1 < s
    · exact ⟨(v, v), (s, e) :: t, insertR_new e t h1, Or.inl rfl⟩
    by_cases h2 : v + 1 = s
    · exact ⟨(v, e), t, insertR_extlo e t h1 h2, Or.inl rfl⟩
    by_cases h3 : v ≤ e
    · exact ⟨(s, e), t, insertR_present t h1 h2 h3, Or.inr ⟨(s, e), t, rfl, rfl⟩⟩
    by_cases h4 : v = e + 1
    · cases t with
      | nil =>
        exact ⟨(s, v), [], insertR_exthi_nil h1 h2 h3 h4,
          Or.inr ⟨(s, e), [], rfl, rfl⟩⟩
      | cons q2 t2 =>
        obtain ⟨s2, e2⟩ := q2
        by_cases h5 : v + 1 = s2
        · exact ⟨(s, e2), t2, insertR_exthi_merge t2 h1 h2 h3 h4 h5,
            Or.inr ⟨(s, e), (s2, e2) :: t2, rfl, rfl⟩⟩
        · exact ⟨(s, v), (s2, e2) :: t2, insertR_exthi_nomerge t2 h1 h2 h3 h4 h5,
            Or.inr ⟨(s, e), (s2, e2) :: t2, rfl, rfl⟩⟩
    · exact ⟨(s, e), insertR v t, insertR_skip t h1 h2 h3 h4,
        Or.inr ⟨(s, e), t, rfl, rfl⟩⟩

theorem insertR_canonical (v : Int) :
    ∀ l : List (Int × Int), Canonical l → Canonical (insertR v l) := by
  intro l
  induction l with
  | nil =>
    intro _
    rw [insertR_nil]
    exact canonical_singleton (le_refl v)
  | cons q t ih =>
    obtain ⟨s, e⟩ := q
    intro hc
    have hse : s ≤ e := by simpa using canonical_head_le_snd hc
    have ht : Canonical t := canonical_tail hc
    have hgaps : ∀ p ∈ t, e + 1 < p.1 := canonical_gap_head s e hc
    by_cases h1 : v + 1 < s
    · rw [insertR_new e t h1, canonical_cons_iff]
      exact ⟨le_refl v, by simp; omega, hc⟩
    by_cases h2 : v + 1 = s
    · rw [insertR_extlo e t h1 h2]
      rw [canonical_cons_iff] at hc ⊢
      refine ⟨by simp; omega, ?_, hc.2.2⟩
      intro q hq
      have := hc.2.1 q hq
      simp at this ⊢
      omega
    by_cases h3 : v ≤ e
    · rw [insertR_present t h1 h2 h3]
      exact hc
    by_cases h4 : v = e + 1
    · cases t with
      | nil =>
        rw [insertR_exthi_nil h1 h2 h3 h4]
        exact canonical_singleton (by omega)
      | cons q2 t2 =>
        obtain ⟨s2, e2⟩ := q2
        have hg2 : e + 1 < s2 := by
          simpa using hgaps (s2, e2) (by simp)
        have hs2e2 : s2 ≤ e2 := by
          simpa using canonical_head_le_snd ht
        by_cases h5 : v + 1 = s2
        · rw [insertR_exthi_merge t2 h1 h2 h3 h4 h5, canonical_cons_iff]
          rw [canonical_cons_iff] at ht
          refine ⟨by simp; omega, ?_, ht.2.2⟩
          intro q hq
          have := ht.2.1 q hq
          simp at this ⊢
          omega
        · rw [insertR_exthi_nomerge t2 h1 h2 h3 h4 h5, canonical_cons_iff]
          refine ⟨by simp; omega, by simp; omega, ht⟩
    · rw [insertR_skip t h1 h2 h3 h4, canonical_cons_iff]
      refine ⟨by simpa using hse, ?_, ih ht⟩
      obtain ⟨c, t3, heq, hhead⟩ := insertR_head v t
      rw [heq]
      simp only [List.head?_cons, Option.mem_def, Option.some.injEq]
      rintro q rfl
      rcases hhead with hcv | ⟨q2, t4, rfl, hq⟩
      · simp only [hcv]
        omega
      · have := hgaps q2 (by simp)
        simp only [hq]
        omega

theorem insertR_contains (v w : Int) :
    ∀ l : List (Int × Int), Canonical l →
      contains w (insertR v l) = (contains w l || decide (w = v)) := by
  intro l
  induction l with
  | nil =>
    intro _
    rw [insertR_nil]
    simp only [contains_cons', contains_nil]
    rw [Bool.eq_iff_iff]
    simp
    omega
  | cons q t ih =>
    obtain ⟨s, e⟩ := q
    intro hc
    have hse : s ≤ e := by simpa using canonical_head_le_snd hc
    have ht : Canonical t := canonical_tail hc
    have hgaps : ∀ p ∈ t, e + 1 < p.1 := canonical_gap_head s e hc
    by_cases h1 : v + 1 < s
    · rw [insertR_new e t h1]
      simp only [contains_cons']
      cases hC : contains w t <;> (rw [Bool.eq_iff_iff]; simp; try omega)
    by_cases h2 : v + 1 = s
    · rw [insertR_extlo e t h1 h2]
      simp only [contains_cons']
      cases hC : contains w t <;> (rw [Bool.eq_iff_iff]; simp; try omega)
    by_cases h3 : v ≤ e
    · rw [insertR_present t h1 h2 h3]
      simp only [contains_cons']
      cases hC : contains w t <;> (rw [Bool.eq_iff_iff]; simp; try omega)
    by_cases h4 : v = e + 1
    · cases t with
      | nil =>
        rw [insertR_exthi_nil h1 h2 h3 h4]
        simp only [contains_cons', contains_nil]
        rw [Bool.eq_iff_iff]
        simp
        omega
      | cons q2 t2 =>
        obtain ⟨s2, e2⟩ := q2
        have hg2 : e + 1 < s2 := by
          simpa using hgaps (s2, e2) (by simp)
        have hs2e2 : s2 ≤ e2 := by
          simpa using canonical_head_le_snd ht
        by_cases h5 : v + 1 = s2
        · rw [insertR_exthi_merge t2 h1 h2 h3 h4 h5]
          simp only [contains_cons']
          cases hC : contains w t2 <;> (rw [Bool.eq_iff_iff]; simp; try omega)
        · rw [insertR_exthi_nomerge t2 h1 h2 h3 h4 h5]
          simp only [contains_cons']
          cases hC : contains w t2 <;> (rw [Bool.eq_iff_iff]; simp; try omega)
    · rw [insertR_skip t h1 h2 h3 h4]
      simp only [contains_cons']
      rw [ih ht, Bool.or_assoc]

/-! ## The checked scan of `insert` on canonical inputs -/

theorem succChk_pos {hi x : Int} (h : x < hi) : succChk hi x = some (x + 1) := by
  unfold succChk
  rw [if_pos h]

theorem predChk_pos {lo x : Int} (h : lo < x) : predChk lo x = some (x - 1) := by
  unfold predChk
  rw [if_pos h]

theorem canonical_append_left {a b : List (Int × Int)}
    (h : Canonical (a ++ b)) : Canonical a :=
  ⟨fun p hp => h.1 p (List.mem_append_left b hp), (List.chain'_append.1 h.2).1⟩

theorem canonical_append_right {a b : List (Int × Int)}
    (h : Canonical (a ++ b)) : Canonical b :=
  ⟨fun p hp => h.1 p (List.mem_append_right a hp), (List.chain'_append.1 h.2).2.1⟩

theorem insertScanChk_skip {lo hi v : Int} {lenR : Nat} (hvhi : v ≤ hi) :
    ∀ (pre rest : List (Int × Int)) (idx : Nat) (ipos : Option Nat),
      (∀ p ∈ pre, p.1 ≤ p.2 ∧ p.2 + 1 < v) →
      idx + pre.length + rest.length = lenR → rest ≠ [] →
      insertScanChk lo hi v lenR (pre ++ rest) idx ipos =
        (insertScanChk lo hi v lenR rest (idx + pre.length) ipos).bind (fun r =>
          match r with
          | .ret => some .ret
          | .brk rs ip cp => some (.brk (pre ++ rs) ip cp)) := by
  intro pre
  induction pre with
  | nil =>
    intro rest idx ipos _ _ _
    simp only [List.nil_append, List.length_nil, Nat.add_zero]
    cases h : insertScanChk lo hi v lenR rest idx ipos with
    | none => simp
    | some r => cases r <;> simp
  | cons a pre2 ih =>
    intro rest idx ipos hpre hlen hne
    obtain ⟨s, e⟩ := a
    have h1 := hpre (s, e) (List.mem_cons_self _ _)
    have hse : s ≤ e := h1.1
    have hev : e + 1 < v := h1.2
    have hrl : 0 < rest.length := List.length_pos.2 hne
    have hlen2 : idx + (pre2.length + 1) + rest.length = lenR := by
      simpa using hlen
    have hidx : ¬(idx = lenR - 1) := by omega
    simp only [List.cons_append, insertScanChk, List.append_eq]
    rw [if_pos (by omega : v ≥ s), if_neg (by omega : ¬(v ≤ e)),
      succChk_pos (by omega : e < hi), Option.some_bind,
      if_neg (by omega : ¬(v = e + 1)), if_neg hidx]
    rw [ih rest (idx + 1) ipos (fun p hp => hpre p (List.mem_cons_of_mem _ hp))
      (by omega) hne]
    have harith : idx + 1 + pre2.length = idx + (pre2.length + 1) := by omega
    rw [harith]
    simp only [List.length_cons]
    cases h2 : insertScanChk lo hi v lenR rest (idx + (pre2.length + 1)) ipos with
    | none => simp
    | some r => cases r <;> simp

theorem insertScanChk_all {lo hi v : Int} {lenR : Nat} (hvhi : v ≤ hi) :
    ∀ (pre : List (Int × Int)) (idx : Nat) (ipos : Option Nat),
      pre ≠ [] →
      (∀ p ∈ pre, p.1 ≤ p.2 ∧ p.2 + 1 < v) →
      idx + pre.length = lenR →
      insertScanChk lo hi v lenR pre idx ipos =
        some (.brk pre (some lenR) none) := by
  intro pre
  induction pre with
  | nil => intro idx ipos h; exact absurd rfl h
  | cons a pre2 ih =>
    intro idx ipos _ hpre hlen
    obtain ⟨s, e⟩ := a
    have h1 := hpre (s, e) (List.mem_cons_self _ _)
    have hse : s ≤ e := h1.1
    have hev : e + 1 < v := h1.2
    have hlen2 : idx + (pre2.length + 1) = lenR := by simpa using hlen
    simp only [insertScanChk]
    rw [if_pos (by omega : v ≥ s), if_neg (by omega : ¬(v ≤ e)),
      succChk_pos (by omega : e < hi), Option.some_bind,
      if_neg (by omega : ¬(v = e + 1))]
    cases pre2 with
    | nil =>
      have hidx : idx = lenR - 1 := by simp at hlen2; omega
      rw [if_pos hidx]
      simp only [insertScanChk]
      simp
    | cons b pre3 =>
      have hidx : ¬(idx = lenR - 1) := by
        have : 0 < (b :: pre3).length := by simp
        simp only [List.length_cons] at hlen2
        omega
      rw [if_neg hidx]
      rw [ih (idx + 1) ipos (by simp)
        (fun p hp => hpre p (List.mem_cons_of_mem _ hp))
        (by simp only [List.length_cons] at hlen2 ⊢; omega)]
      simp

theorem mergeCheckChk_stop {hi : Int} {rs : List (Int × Int)} {cp : Nat}
    (h : cp ≥ rs.length - 1) : mergeCheckChk hi rs cp = some rs := by
  unfold mergeCheckChk
  rw [if_pos (Or.inr h)]

theorem mergeCheckChk_mid {hi : Int} (pre t : List (Int × Int)) (a b : Int × Int)
    (hhi : a.2 < hi) :
    mergeCheckChk hi (pre ++ a :: b :: t) pre.length =
      some (if a.2 + 1 = b.1 then pre ++ (a.1, b.2) :: t
        else pre ++ a :: b :: t) := by
  have hlen : (pre ++ a :: b :: t).length = pre.length + (t.length + 2) := by
    simp
  have hg1 : (pre ++ a :: b :: t).getD pre.length (0, 0) = a := by
    have h := getD_append_len pre (a :: b :: t) 0 ((0 : Int), (0 : Int))
    simpa using h
  have hg2 : (pre ++ a :: b :: t).getD (pre.length + 1) (0, 0) = b := by
    have h := getD_append_len pre (a :: b :: t) 1 ((0 : Int), (0 : Int))
    simpa using h
  unfold mergeCheckChk
  rw [if_neg (by rw [hlen]; omega), hg1, hg2, succChk_pos hhi, Option.some_bind]
  by_cases hm : a.2 + 1 = b.1
  · rw [if_pos hm, if_pos hm]
    have hset : (pre ++ a :: b :: t).set pre.length (a.1, b.2) =
        pre ++ (a.1, b.2) :: b :: t := by
      have h := set_append_len pre (a :: b :: t) 0 (a.1, b.2)
      simpa using h
    have herase : (pre ++ (a.1, b.2) :: b :: t).eraseIdx (pre.length + 1) =
        pre ++ (a.1, b.2) :: t := by
      have h := eraseIdx_append_len pre ((a.1, b.2) :: b :: t) 1
      simpa using h
    rw [hset, herase]
  · rw [if_neg hm, if_neg hm]

theorem insertChk_unfold {lo hi v : Int} {rs : List (Int × Int)} (h : rs ≠ []) :
    insertChk lo hi v rs =
      (insertScanChk lo hi v rs.length rs 0 none).bind (fun r =>
        match r with
        | .ret => some rs
        | .brk rs2 ipos cpos =>
          let rs3 := match ipos with
            | some p => rs2.insertIdx p (v, v)
            | none => rs2
          match cpos with
          | some cp => mergeCheckChk hi rs3 cp
          | none => some rs3) := by
  unfold insertChk
  rw [if_neg (by simp [h])]

/-- Main lemma: on a canonical, in-bounds list, the checked `insert` never
fails and computes the structural `insertR` past any already-scanned
prefix. -/
theorem insertChk_go {lo hi v : Int} (hlov : lo ≤ v) (hvhi : v ≤ hi) :
    ∀ (rest pre : List (Int × Int)),
      Canonical (pre ++ rest) → InBounds lo hi (pre ++ rest) →
      (∀ p ∈ pre, p.2 + 1 < v) →
      insertChk lo hi v (pre ++ rest) = some (pre ++ insertR v rest) := by
  intro rest
  induction rest with
  | nil =>
    intro pre hc hb hpre
    cases pre with
    | nil => simp [insertChk, insertR_nil]
    | cons a pre2 =>
      rw [List.append_nil] at hc hb ⊢
      rw [insertChk_unfold (List.cons_ne_nil a pre2)]
      rw [insertScanChk_all hvhi (a :: pre2) 0 none (List.cons_ne_nil a pre2)
        (fun p hp2 => ⟨hc.1 p hp2, hpre p hp2⟩) (by simp)]
      rw [Option.some_bind]
      simp [List.insertIdx_length_self, insertR_nil]
  | cons hd tail ih =>
    intro pre hc hb hpre
    obtain ⟨s, e⟩ := hd
    have hcr : Canonical ((s, e) :: tail) := canonical_append_right hc
    have hse : s ≤ e := by simpa using canonical_head_le_snd hcr
    have hbse := hb (s, e) (by simp)
    have hslo : lo ≤ s := hbse.1
    have hshi : s ≤ hi := hbse.2.1
    have hehi : e ≤ hi := hbse.2.2.2
    have hfullne : pre ++ (s, e) :: tail ≠ [] := by simp
    by_cases h1 : v + 1 < s
    · -- brand-new singleton before this entry
      rw [insertChk_unfold hfullne,
        insertScanChk_skip hvhi pre ((s, e) :: tail) 0 none
          (fun p hp => ⟨hc.1 p (List.mem_append_left _ hp), hpre p hp⟩)
          (by simp) (List.cons_ne_nil _ _)]
      simp only [Nat.zero_add, insertScanChk]
      rw [if_neg (by omega : ¬(v ≥ s)), predChk_pos (by omega : lo < s),
        Option.some_bind, if_neg (by omega : ¬(v = s - 1))]
      have hins : List.insertIdx pre.length (v, v) (pre ++ (s, e) :: tail) =
          pre ++ (v, v) :: (s, e) :: tail := by
        have h := insertIdx_append_len pre ((s, e) :: tail) 0 (v, v)
        simpa [List.insertIdx_zero] using h
      rw [insertR_new e tail h1]
      simp only [Option.some_bind]
      simp [hins]
    · by_cases h2 : v + 1 = s
      · -- extend the current entry downward
        rw [insertChk_unfold hfullne,
          insertScanChk_skip hvhi pre ((s, e) :: tail) 0 none
            (fun p hp => ⟨hc.1 p (List.mem_append_left _ hp), hpre p hp⟩)
            (by simp) (List.cons_ne_nil _ _)]
        simp only [Nat.zero_add, insertScanChk]
        rw [if_neg (by omega : ¬(v ≥ s)), predChk_pos (by omega : lo < s),
          Option.some_bind, if_pos (by omega : v = s - 1)]
        rw [insertR_extlo e tail h1 h2]
        have hsv : s - 1 = v := by omega
        cases pre with
        | nil => simp [hsv]
        | cons q pre2 =>
          rcases List.eq_nil_or_concat (q :: pre2) with habs | ⟨pre0, b, hpre0⟩
          · simp at habs
          · have hpre_eq : q :: pre2 = pre0 ++ [b] := by
              rw [hpre0, List.concat_eq_append]
            have hbmem : b ∈ q :: pre2 := by rw [hpre_eq]; simp
            have hbgap : b.2 + 1 < v := hpre b hbmem
            rw [hpre_eq]
            have hlen0 : (pre0 ++ [b]).length = pre0.length + 1 := by simp
            simp only [Option.some_bind]
            rw [hsv]
            -- check position is the last prefix entry; the gap is too wide
            have hassoc : (pre0 ++ [b]) ++ (v, e) :: tail =
                pre0 ++ b :: (v, e) :: tail := by simp
            have hcond : ((pre0 ++ [b]).length > 0) := by simp
            rw [if_pos hcond]
            have hcp : (pre0 ++ [b]).length - 1 = pre0.length := by simp
            rw [hcp, hassoc]
            show mergeCheckChk hi (pre0 ++ b :: (v, e) :: tail) pre0.length =
              some (pre0 ++ b :: (v, e) :: tail)
            rw [mergeCheckChk_mid pre0 tail b (v, e) (by omega : b.2 < hi)]
            rw [if_neg (show ¬(b.2 + 1 = (v, e).1) by
              change ¬(b.2 + 1 = v); omega)]
      · by_cases h3 : v ≤ e
        · -- value already present
          rw [insertChk_unfold hfullne,
            insertScanChk_skip hvhi pre ((s, e) :: tail) 0 none
              (fun p hp => ⟨hc.1 p (List.mem_append_left _ hp), hpre p hp⟩)
              (by simp) (List.cons_ne_nil _ _)]
          simp only [Nat.zero_add, insertScanChk]
          rw [if_pos (by omega : v ≥ s), if_pos h3, insertR_present tail h1 h2 h3]
          simp
        · by_cases h4 : v = e + 1
          · -- extend the current entry upward, then the merge check
            rw [insertChk_unfold hfullne,
              insertScanChk_skip hvhi pre ((s, e) :: tail) 0 none
                (fun p hp => ⟨hc.1 p (List.mem_append_left _ hp), hpre p hp⟩)
                (by simp) (List.cons_ne_nil _ _)]
            simp only [Nat.zero_add, insertScanChk]
            rw [if_pos (by omega : v ≥ s), if_neg h3,
              succChk_pos (by omega : e < hi), Option.some_bind,
              if_pos (by omega : v = e + 1)]
            have hev2 : e + 1 = v := h4.symm
            rw [hev2]
            simp only [Option.some_bind]
            cases tail with
            | nil =>
              rw [insertR_exthi_nil h1 h2 h3 h4]
              have hstop : mergeCheckChk hi (pre ++ [(s, v)]) pre.length =
                  some (pre ++ [(s, v)]) :=
                mergeCheckChk_stop (by simp)
              simp [hstop]
            | cons q2 t2 =>
              obtain ⟨s2, e2⟩ := q2
              have hg2 : e + 1 < s2 := by
                simpa using canonical_gap_head s e hcr (s2, e2) (by simp)
              have hs2hi : s2 ≤ hi := (hb (s2, e2) (by simp)).2.1
              have hmid := mergeCheckChk_mid pre t2 (s, v) (s2, e2)
                (by simp only; omega : (s, v).2 < hi)
              by_cases h5 : v + 1 = s2
              · rw [insertR_exthi_merge t2 h1 h2 h3 h4 h5]
                rw [if_pos (by simpa using h5)] at hmid
                simp [hmid]
              · rw [insertR_exthi_nomerge t2 h1 h2 h3 h4 h5]
                rw [if_neg (by simpa using h5)] at hmid
                simp [hmid]
          · -- scan past this entry
            have hE : e + 1 < v := by omega
            have hIH := ih (pre ++ [(s, e)])
              (by simpa using hc) (by simpa using hb)
              (by
                intro p hp
                rcases List.mem_append.1 hp with hp2 | hp2
                · exact hpre p hp2
                · simp only [List.mem_singleton] at hp2
                  subst hp2
                  exact hE)
            have hassoc : (pre ++ [(s, e)]) ++ tail = pre ++ (s, e) :: tail := by
              simp
            rw [hassoc] at hIH
            rw [hIH, insertR_skip tail h1 h2 h3 h4]
            simp

/-! ## Erasure: when the checked code succeeds, the plain code agrees -/

theorem succChk_inv {hi x y : Int} (h : succChk hi x = some y) :
    y = x + 1 ∧ x < hi := by
  unfold succChk at h
  by_cases hx : x < hi
  · rw [if_pos hx] at h
    injection h with h2
    exact ⟨h2.symm, hx⟩
  · rw [if_neg hx] at h
    simp at h

theorem predChk_inv {lo x y : Int} (h : predChk lo x = some y) :
    y = x - 1 ∧ lo < x := by
  unfold predChk at h
  by_cases hx : lo < x
  · rw [if_pos hx] at h
    injection h with h2
    exact ⟨h2.symm, hx⟩
  · rw [if_neg hx] at h
    simp at h

theorem insertScanChk_erase {lo hi v : Int} {lenR : Nat} :
    ∀ (l : List (Int × Int)) (idx : Nat) (ipos : Option Nat) (res : ScanResult),
      insertScanChk lo hi v lenR l idx ipos = some res →
      insertScan v lenR l idx ipos = res := by
  intro l
  induction l with
  | nil =>
    intro idx ipos res h
    exact Option.some.inj h
  | cons a l2 ih =>
    intro idx ipos res h
    obtain ⟨s, e⟩ := a
    simp only [insertScanChk] at h
    simp only [insertScan]
    by_cases h1 : v ≥ s
    · rw [if_pos h1] at h ⊢
      by_cases h2 : v ≤ e
      · rw [if_pos h2] at h ⊢
        exact Option.some.inj h
      · rw [if_neg h2] at h ⊢
        cases hs : succChk hi e with
        | none => rw [hs] at h; simp at h
        | some e1 =>
          have he1 : e1 = e + 1 := (succChk_inv hs).1
          subst he1
          rw [hs, Option.some_bind] at h
          by_cases h3 : v = e + 1
          · rw [if_pos h3] at h ⊢
            exact Option.some.inj h
          · rw [if_neg h3] at h ⊢
            cases hr : insertScanChk lo hi v lenR l2 (idx + 1)
                (if idx = lenR - 1 then some lenR else ipos) with
            | none => rw [hr] at h; simp at h
            | some r =>
              rw [hr, Option.some_bind] at h
              rw [ih _ _ r hr]
              cases r with
              | ret =>
                exact Option.some.inj h
              | brk rs ip cp =>
                exact Option.some.inj h
    · rw [if_neg h1] at h ⊢
      cases hs : predChk lo s with
      | none => rw [hs] at h; simp at h
      | some s1 =>
        have hs1 : s1 = s - 1 := (predChk_inv hs).1
        subst hs1
        rw [hs, Option.some_bind] at h
        by_cases h2 : v = s - 1
        · rw [if_pos h2] at h ⊢
          exact Option.some.inj h
        · rw [if_neg h2] at h ⊢
          exact Option.some.inj h

theorem mergeCheckChk_erase {hi : Int} {rs : List (Int × Int)} {cp : Nat}
    {out : List (Int × Int)} (h : mergeCheckChk hi rs cp = some out) :
    mergeCheck rs cp = out := by
  unfold mergeCheckChk at h
  unfold mergeCheck
  by_cases h1 : rs.length ≤ 1 ∨ cp ≥ rs.length - 1
  · rw [if_pos h1] at h ⊢
    exact Option.some.inj h
  · rw [if_neg h1] at h ⊢
    cases hs : succChk hi (rs.getD cp (0, 0)).2 with
    | none => rw [hs] at h; simp at h
    | some y =>
      have hy : y = (rs.getD cp (0, 0)).2 + 1 := (succChk_inv hs).1
      subst hy
      rw [hs, Option.some_bind] at h
      by_cases h2 : (rs.getD cp (0, 0)).2 + 1 = (rs.getD (cp + 1) (0, 0)).1
      · rw [if_pos h2] at h ⊢
        exact Option.some.inj h
      · rw [if_neg h2] at h ⊢
        exact Option.some.inj h

theorem insertChk_erase {lo hi v : Int} {rs out : List (Int × Int)}
    (h : insertChk lo hi v rs = some out) : insert v rs = out := by
  unfold insertChk at h
  unfold insert
  by_cases he : rs.isEmpty
  · rw [if_pos he] at h ⊢
    exact Option.some.inj h
  · rw [if_neg he] at h ⊢
    cases hr : insertScanChk lo hi v rs.length rs 0 none with
    | none => rw [hr] at h; simp at h
    | some r =>
      rw [hr, Option.some_bind] at h
      rw [insertScanChk_erase rs 0 none r hr]
      cases r with
      | ret =>
        exact Option.some.inj h
      | brk rs2 ipos cpos =>
        cases ipos with
        | none =>
          cases cpos with
          | none =>
            exact Option.some.inj h
          | some cp => exact mergeCheckChk_erase h
        | some p =>
          cases cpos with
          | none =>
            exact Option.some.inj h
          | some cp => exact mergeCheckChk_erase h

/-! ## The plain `insert` equals `insertR` on canonical inputs -/

theorem exists_bounds (rs : List (Int × Int)) (v : Int) :
    ∃ lo hi : Int, lo ≤ v ∧ v ≤ hi ∧ InBounds lo hi rs := by
  induction rs with
  | nil =>
    refine ⟨v, v, le_refl v, le_refl v, ?_⟩
    intro p hp
    simp at hp
  | cons a t ih =>
    obtain ⟨lo, hi, h1, h2, h3⟩ := ih
    refine ⟨min lo (min a.1 a.2), max hi (max a.1 a.2), by omega, by omega, ?_⟩
    intro p hp
    rcases List.mem_cons.1 hp with rfl | hp2
    · refine ⟨by omega, by omega, by omega, by omega⟩
    · have := h3 p hp2
      refine ⟨by omega, by omega, by omega, by omega⟩

theorem insert_eq_insertR {v : Int} {rs : List (Int × Int)}
    (hc : Canonical rs) : insert v rs = insertR v rs := by
  obtain ⟨lo, hi, h1, h2, h3⟩ := exists_bounds rs v
  have h := insertChk_go h1 h2 rs [] (by simpa using hc) (by simpa using h3)
    (by simp)
  simp only [List.nil_append] at h
  exact insertChk_erase h

theorem insert_canonical {v : Int} {rs : List (Int × Int)}
    (hc : Canonical rs) : Canonical (insert v rs) := by
  rw [insert_eq_insertR hc]
  exact insertR_canonical v rs hc

theorem insert_contains {v w : Int} {rs : List (Int × Int)}
    (hc : Canonical rs) :
    contains w (insert v rs) = (contains w rs || decide (w = v)) := by
  rw [insert_eq_insertR hc]
  exact insertR_contains v w rs hc

theorem insertChk_eq_insert {lo hi v : Int} {rs : List (Int × Int)}
    (hc : Canonical rs) (hb : InBounds lo hi rs)
    (h1 : lo ≤ v) (h2 : v ≤ hi) :
    insertChk lo hi v rs = some (insert v rs) := by
  have h := insertChk_go h1 h2 rs [] (by simpa using hc) (by simpa using hb)
    (by simp)
  simp only [List.nil_append] at h
  rw [insert_eq_insertR hc]
  exact h

/-! ## Properties of the structural remove `removeR` -/

theorem removeR_nil (v : Int) : removeR v [] = [] := rfl

theorem removeR_exact {v s e : Int} (t : List (Int × Int))
    (h1 : v = s) (h2 : v = e) : removeR v ((s, e) :: t) = t := by
  simp only [removeR]
  rw [if_pos h1, if_pos h2]

theorem removeR_shrinklo {v s e : Int} (t : List (Int × Int))
    (h1 : v = s) (h2 : ¬(v = e)) :
    removeR v ((s, e) :: t) = (s + 1, e) :: t := by
  simp only [removeR]
  rw [if_pos h1, if_neg h2]

theorem removeR_shrinkhi {v s e : Int} (t : List (Int × Int))
    (h1 : ¬(v = s)) (h2 : v = e) :
    removeR v ((s, e) :: t) = (s, e - 1) :: t := by
  simp only [removeR]
  rw [if_neg h1, if_pos h2]

theorem removeR_split {v s e : Int} (t : List (Int × Int))
    (h1 : ¬(v = s)) (h2 : ¬(v = e)) (h3 : s < v ∧ v < e) :
    removeR v ((s, e) :: t) = (s, v - 1) :: (v + 1, e) :: t := by
  simp only [removeR]
  rw [if_neg h1, if_neg h2, if_pos h3]

theorem removeR_skip {v s e : Int} (t : List (Int × Int))
    (h1 : ¬(v = s)) (h2 : ¬(v = e)) (h3 : ¬(s < v ∧ v < e)) :
    removeR v ((s, e) :: t) = (s, e) :: removeR v t := by
  simp only [removeR]
  rw [if_neg h1, if_neg h2, if_neg h3]

theorem removeR_starts (v : Int) :
    ∀ l : List (Int × Int), ∀ p ∈ removeR v l, ∃ q ∈ l, q.1 ≤ p.1 := by
  intro l
  induction l with
  | nil => intro p hp; rw [removeR_nil] at hp; simp at hp
  | cons a t ih =>
    obtain ⟨s, e⟩ := a
    intro p hp
    by_cases h1 : v = s
    · by_cases h2 : v = e
      · rw [removeR_exact t h1 h2] at hp
        exact ⟨p, List.mem_cons_of_mem _ hp, le_refl _⟩
      · rw [removeR_shrinklo t h1 h2] at hp
        rcases List.mem_cons.1 hp with rfl | hp2
        · exact ⟨(s, e), List.mem_cons_self _ _, by simp⟩
        · exact ⟨p, List.mem_cons_of_mem _ hp2, le_refl _⟩
    · by_cases h2 : v = e
      · rw [removeR_shrinkhi t h1 h2] at hp
        rcases List.mem_cons.1 hp with rfl | hp2
        · exact ⟨(s, e), List.mem_cons_self _ _, by simp⟩
        · exact ⟨p, List.mem_cons_of_mem _ hp2, le_refl _⟩
      · by_cases h3 : s < v ∧ v < e
        · rw [removeR_split t h1 h2 h3] at hp
          rcases List.mem_cons.1 hp with rfl | hp2
          · exact ⟨(s, e), List.mem_cons_self _ _, by simp⟩
          · rcases List.mem_cons.1 hp2 with rfl | hp3
            · exact ⟨(s, e), List.mem_cons_self _ _, by simp <;> omega⟩
            · exact ⟨p, List.mem_cons_of_mem _ hp3, le_refl _⟩
        · rw [removeR_skip t h1 h2 h3] at hp
          rcases List.mem_cons.1 hp with rfl | hp2
          · exact ⟨(s, e), List.mem_cons_self _ _, le_refl _⟩
          · obtain ⟨q, hq, hle⟩ := ih p hp2
            exact ⟨q, List.mem_cons_of_mem _ hq, hle⟩

theorem removeR_canonical (v : Int) :
    ∀ l : List (Int × Int), Canonical l → Canonical (removeR v l) := by
  intro l
  induction l with
  | nil => intro _; rw [removeR_nil]; exact canonical_nil
  | cons a t ih =>
    obtain ⟨s, e⟩ := a
    intro hc
    have hse : s ≤ e := by simpa using canonical_head_le_snd hc
    have ht : Canonical t := canonical_tail hc
    have hgaps : ∀ p ∈ t, e + 1 < p.1 := canonical_gap_head s e hc
    have hhead : ∀ q ∈ t.head?, e + 1 < q.1 := by
      intro q hq
      cases t with
      | nil => simp at hq
      | cons b t2 =>
        have hqb : q = b := by simpa [eq_comm] using hq
        rw [hqb]
        exact hgaps b (List.mem_cons_self _ _)
    by_cases h1 : v = s
    · by_cases h2 : v = e
      · rw [removeR_exact t h1 h2]
        exact ht
      · rw [removeR_shrinklo t h1 h2, canonical_cons_iff]
        exact ⟨by simp; omega, by simpa using hhead, ht⟩
    · by_cases h2 : v = e
      · rw [removeR_shrinkhi t h1 h2, canonical_cons_iff]
        refine ⟨by simp; omega, ?_, ht⟩
        intro q hq
        have := hhead q hq
        simp at this ⊢
        omega
      · by_cases h3 : s < v ∧ v < e
        · rw [removeR_split t h1 h2 h3, canonical_cons_iff, canonical_cons_iff]
          refine ⟨by simp <;> omega, by simp <;> omega, by simp <;> omega, ?_, ht⟩
          simpa using hhead
        · rw [removeR_skip t h1 h2 h3, canonical_cons_iff]
          refine ⟨by simpa using hse, ?_, ih ht⟩
          intro q hq
          cases hrt : removeR v t with
          | nil => rw [hrt] at hq; simp at hq
          | cons c t3 =>
            rw [hrt] at hq
            have hqc : q = c := by simpa [eq_comm] using hq
            have hcmem : q ∈ removeR v t := by rw [hrt, hqc]; simp
            obtain ⟨q2, hq2, hle⟩ := removeR_starts v t q hcmem
            have hg := hgaps q2 hq2
            show e + 1 < q.1
            omega

theorem removeR_contains (v w : Int) :
    ∀ l : List (Int × Int), Canonical l →
      contains w (removeR v l) = (contains w l && decide (w ≠ v)) := by
  intro l
  induction l with
  | nil =>
    intro _
    rw [removeR_nil, contains_nil]
    simp
  | cons a t ih =>
    obtain ⟨s, e⟩ := a
    intro hc
    have hse : s ≤ e := by simpa using canonical_head_le_snd hc
    have ht : Canonical t := canonical_tail hc
    by_cases h1 : v = s
    · by_cases h2 : v = e
      · rw [removeR_exact t h1 h2]
        simp only [contains_cons']
        cases hC : contains w t with
        | false => rw [Bool.eq_iff_iff]; simp; omega
        | true =>
          have h6 : e + 1 < w := canonical_contains_tail_gt hc hC
          rw [Bool.eq_iff_iff]
          simp
          omega
      · rw [removeR_shrinklo t h1 h2]
        simp only [contains_cons']
        cases hC : contains w t with
        | false => rw [Bool.eq_iff_iff]; simp; omega
        | true =>
          have h6 : e + 1 < w := canonical_contains_tail_gt hc hC
          rw [Bool.eq_iff_iff]
          simp
          omega
    · by_cases h2 : v = e
      · rw [removeR_shrinkhi t h1 h2]
        simp only [contains_cons']
        cases hC : contains w t with
        | false => rw [Bool.eq_iff_iff]; simp; omega
        | true =>
          have h6 : e + 1 < w := canonical_contains_tail_gt hc hC
          rw [Bool.eq_iff_iff]
          simp
          omega
      · by_cases h3 : s < v ∧ v < e
        · rw [removeR_split t h1 h2 h3]
          simp only [contains_cons']
          cases hC : contains w t with
          | false => rw [Bool.eq_iff_iff]; simp; omega
          | true =>
            have h6 : e + 1 < w := canonical_contains_tail_gt hc hC
            rw [Bool.eq_iff_iff]
            simp
            omega
        · rw [removeR_skip t h1 h2 h3]
          simp only [contains_cons']
          rw [ih ht]
          cases hC : contains w t with
          | false => rw [Bool.eq_iff_iff]; simp; omega
          | true =>
            have h6 : e + 1 < w := canonical_contains_tail_gt hc hC
            rw [Bool.eq_iff_iff]
            simp
            omega

/-! ## The checked scan of `remove` on canonical inputs -/

theorem removeScanChk_skip {lo hi v : Int} :
    ∀ (pre rest : List (Int × Int)) (idx : Nat) (ar : Option (Nat × Int)),
      (∀ p ∈ pre, NoMatch v p) →
      removeScanChk lo hi v (pre ++ rest) idx ar =
        (removeScanChk lo hi v rest (idx + pre.length) ar).bind (fun r =>
          match r with
          | .ret rs => some (.ret (pre ++ rs))
          | .done rs ar2 => some (.done (pre ++ rs) ar2)) := by
  intro pre
  induction pre with
  | nil =>
    intro rest idx ar _
    simp only [List.nil_append, List.length_nil, Nat.add_zero]
    cases h : removeScanChk lo hi v rest idx ar with
    | none => simp
    | some r => cases r <;> simp
  | cons a pre2 ih =>
    intro rest idx ar hpre
    obtain ⟨s, e⟩ := a
    have hnm := hpre (s, e) (List.mem_cons_self _ _)
    have hn1 : ¬(v = s) := hnm.1
    have hn2 : ¬(v = e) := hnm.2.1
    have hn3 : ¬(v > s ∧ v < e) := hnm.2.2
    simp only [List.cons_append, removeScanChk, List.append_eq]
    rw [if_neg hn1, if_neg hn2, if_neg hn3]
    rw [ih rest (idx + 1) ar (fun p hp => hpre p (List.mem_cons_of_mem _ hp))]
    have harith : idx + 1 + pre2.length = idx + (pre2.length + 1) := by omega
    rw [harith]
    simp only [List.length_cons]
    cases h2 : removeScanChk lo hi v rest (idx + (pre2.length + 1)) ar with
    | none => simp
    | some r => cases r <;> simp

/-- Main lemma: on a canonical, in-bounds list, the checked `remove` never
fails and computes the structural `removeR` past any non-matching prefix. -/
theorem removeChk_go {lo hi v : Int} (hlov : lo ≤ v) (hvhi : v ≤ hi) :
    ∀ (rest pre : List (Int × Int)),
      Canonical (pre ++ rest) → InBounds lo hi (pre ++ rest) →
      (∀ p ∈ pre, NoMatch v p) →
      removeChk lo hi v (pre ++ rest) = some (pre ++ removeR v rest) := by
  intro rest
  induction rest with
  | nil =>
    intro pre hc hb hpre
    unfold removeChk
    rw [removeScanChk_skip pre [] 0 none hpre]
    simp [removeR_nil, removeScanChk]
  | cons hd tail ih =>
    intro pre hc hb hpre
    obtain ⟨s, e⟩ := hd
    have hcr : Canonical ((s, e) :: tail) := canonical_append_right hc
    have hse : s ≤ e := by simpa using canonical_head_le_snd hcr
    have hbse := hb (s, e) (by simp)
    have hslo : lo ≤ s := hbse.1
    have hehi : e ≤ hi := hbse.2.2.2
    by_cases h1 : v = s
    · by_cases h2 : v = e
      · unfold removeChk
        rw [removeScanChk_skip pre ((s, e) :: tail) 0 none hpre]
        simp only [Nat.zero_add, removeScanChk]
        rw [if_pos h1, if_pos h2, removeR_exact tail h1 h2]
        simp
      · have hslt : s < e := by omega
        unfold removeChk
        rw [removeScanChk_skip pre ((s, e) :: tail) 0 none hpre]
        simp only [Nat.zero_add, removeScanChk]
        rw [if_pos h1, if_neg h2, succChk_pos (by omega : s < hi),
          Option.some_bind, removeR_shrinklo tail h1 h2]
        simp
    · by_cases h2 : v = e
      · have hslt : s < e := by omega
        unfold removeChk
        rw [removeScanChk_skip pre ((s, e) :: tail) 0 none hpre]
        simp only [Nat.zero_add, removeScanChk]
        rw [if_neg h1, if_pos h2, predChk_pos (by omega : lo < e),
          Option.some_bind, removeR_shrinkhi tail h1 h2]
        simp
      · by_cases h3 : v > s ∧ v < e
        · unfold removeChk
          rw [removeScanChk_skip pre ((s, e) :: tail) 0 none hpre]
          simp only [Nat.zero_add, removeScanChk]
          rw [if_neg h1, if_neg h2, if_pos h3,
            predChk_pos (by omega : lo < v), Option.some_bind]
          have htailnm : ∀ p ∈ tail, NoMatch v p := by
            intro p hp
            have hg := canonical_gap_head s e hcr p hp
            have hp12 : p.1 ≤ p.2 := (canonical_tail hcr).1 p hp
            exact ⟨by omega, by omega, by omega⟩
          have hscan : removeScanChk lo hi v tail (pre.length + 1)
              (some (pre.length + 1, e)) =
              some (.done tail (some (pre.length + 1, e))) := by
            have h := @removeScanChk_skip lo hi v tail []
              (pre.length + 1) (some (pre.length + 1, e)) htailnm
            simpa [removeScanChk] using h
          rw [hscan, Option.some_bind]
          simp only [Option.some_bind]
          have hins : List.insertIdx (pre.length + 1) (v + 1, e)
              (pre ++ (s, v - 1) :: tail) =
              pre ++ (s, v - 1) :: (v + 1, e) :: tail := by
            have h := insertIdx_append_len pre ((s, v - 1) :: tail) 1 (v + 1, e)
            simpa [List.insertIdx_succ_cons, List.insertIdx_zero] using h
          rw [removeR_split tail h1 h2 (by omega)]
          rw [succChk_pos (by omega : v < hi), Option.some_bind, hins]
        · have hIH := ih (pre ++ [(s, e)])
            (by simpa using hc) (by simpa using hb)
            (by
              intro p hp
              rcases List.mem_append.1 hp with hp2 | hp2
              · exact hpre p hp2
              · simp only [List.mem_singleton] at hp2
                subst hp2
                exact ⟨h1, h2, h3⟩)
          have hassoc : (pre ++ [(s, e)]) ++ tail = pre ++ (s, e) :: tail := by
            simp
          rw [hassoc] at hIH
          rw [hIH, removeR_skip tail h1 h2 (by
            intro hx
            exact h3 ⟨hx.1, hx.2⟩)]
          simp

theorem removeScanChk_erase {lo hi v : Int} :
    ∀ (l : List (Int × Int)) (idx : Nat) (ar : Option (Nat × Int))
      (res : RemScan),
      removeScanChk lo hi v l idx ar = some res →
      removeScan v l idx ar = res := by
  intro l
  induction l with
  | nil =>
    intro idx ar res h
    exact Option.some.inj h
  | cons a l2 ih =>
    intro idx ar res h
    obtain ⟨s, e⟩ := a
    simp only [removeScanChk] at h
    simp only [removeScan]
    by_cases h1 : v = s
    · rw [if_pos h1] at h ⊢
      by_cases h2 : v = e
      · rw [if_pos h2] at h ⊢
        exact Option.some.inj h
      · rw [if_neg h2] at h ⊢
        cases hs : succChk hi s with
        | none => rw [hs] at h; simp at h
        | some s1 =>
          have hs1 : s1 = s + 1 := (succChk_inv hs).1
          subst hs1
          rw [hs, Option.some_bind] at h
          exact Option.some.inj h
    · rw [if_neg h1] at h ⊢
      by_cases h2 : v = e
      · rw [if_pos h2] at h ⊢
        cases hs : predChk lo e with
        | none => rw [hs] at h; simp at h
        | some e1 =>
          have he1 : e1 = e - 1 := (predChk_inv hs).1
          subst he1
          rw [hs, Option.some_bind] at h
          exact Option.some.inj h
      · rw [if_neg h2] at h ⊢
        by_cases h3 : v > s ∧ v < e
        · rw [if_pos h3] at h ⊢
          cases hs : predChk lo v with
          | none => rw [hs] at h; simp at h
          | some v1 =>
            have hv1 : v1 = v - 1 := (predChk_inv hs).1
            subst hv1
            rw [hs, Option.some_bind] at h
            cases hr : removeScanChk lo hi v l2 (idx + 1)
                (some (idx + 1, e)) with
            | none => rw [hr] at h; simp at h
            | some r =>
              rw [hr, Option.some_bind] at h
              rw [ih _ _ r hr]
              cases r with
              | ret rs => exact Option.some.inj h
              | done rs ar2 => exact Option.some.inj h
        · rw [if_neg h3] at h ⊢
          cases hr : removeScanChk lo hi v l2 (idx + 1) ar with
          | none => rw [hr] at h; simp at h
          | some r =>
            rw [hr, Option.some_bind] at h
            rw [ih _ _ r hr]
            cases r with
            | ret rs => exact Option.some.inj h
            | done rs ar2 => exact Option.some.inj h

theorem removeChk_erase {lo hi v : Int} {rs out : List (Int × Int)}
    (h : removeChk lo hi v rs = some out) : remove v rs = out := by
  unfold removeChk at h
  unfold remove
  cases hr : removeScanChk lo hi v rs 0 none with
  | none => rw [hr] at h; simp at h
  | some r =>
    rw [hr, Option.some_bind] at h
    rw [removeScanChk_erase rs 0 none r hr]
    cases r with
    | ret rs2 => exact Option.some.inj h
    | done rs2 ar =>
      cases ar with
      | none => exact Option.some.inj h
      | some p =>
        obtain ⟨i, oldEnd⟩ := p
        cases hs : succChk hi v with
        | none => rw [hs] at h; simp at h
        | some v1 =>
          have hv1 : v1 = v + 1 := (succChk_inv hs).1
          subst hv1
          rw [hs] at h
          simp only [Option.some_bind] at h
          exact Option.some.inj h

/-! ## The plain `remove` equals `removeR` on canonical inputs -/

theorem remove_eq_removeR {v : Int} {rs : List (Int × Int)}
    (hc : Canonical rs) : remove v rs = removeR v rs := by
  obtain ⟨lo, hi, h1, h2, h3⟩ := exists_bounds rs v
  have h := removeChk_go h1 h2 rs [] (by simpa using hc) (by simpa using h3)
    (by simp)
  simp only [List.nil_append] at h
  exact removeChk_erase h

theorem remove_canonical {v : Int} {rs : List (Int × Int)}
    (hc : Canonical rs) : Canonical (remove v rs) := by
  rw [remove_eq_removeR hc]
  exact removeR_canonical v rs hc

theorem remove_contains {v w : Int} {rs : List (Int × Int)}
    (hc : Canonical rs) :
    contains w (remove v rs) = (contains w rs && decide (w ≠ v)) := by
  rw [remove_eq_removeR hc]
  exact removeR_contains v w rs hc

theorem removeChk_eq_remove {lo hi v : Int} {rs : List (Int × Int)}
    (hc : Canonical rs) (hb : InBounds lo hi rs)
    (h1 : lo ≤ v) (h2 : v ≤ hi) :
    removeChk lo hi v rs = some (remove v rs) := by
  have h := removeChk_go h1 h2 rs [] (by simpa using hc) (by simpa using hb)
    (by simp)
  simp only [List.nil_append] at h
  rw [remove_eq_removeR hc]
  exact h

/-! ## Positional corollaries -/

theorem canonical_sorted :
    ∀ rs : List (Int × Int), Canonical rs →
      rs.Chain' (fun a b => a.1 < b.1) := by
  intro rs
  induction rs with
  | nil => intro _; simp
  | cons a t ih =>
    intro hc
    rw [canonical_cons_iff] at hc
    rw [List.chain'_cons']
    refine ⟨?_, ih hc.2.2⟩
    intro q hq
    have h1 := hc.2.1 q hq
    have h2 := hc.1
    omega

theorem canonical_append_mid {suf : List (Int × Int)} {q : Int × Int} :
    ∀ pre : List (Int × Int), Canonical (pre ++ q :: suf) →
      ∀ p ∈ pre, p.2 + 1 < q.1 := by
  intro pre
  induction pre with
  | nil => intro _ p hp; simp at hp
  | cons a pre2 ih =>
    intro hc p hp
    rw [List.cons_append] at hc
    rcases List.mem_cons.1 hp with rfl | hp2
    · have h := canonical_gap_head p.1 p.2 (by simpa using hc) q
        (by simp)
      exact h
    · exact ih (canonical_tail hc) p hp2

theorem insert_go_plain {v : Int} {pre rest : List (Int × Int)}
    (hc : Canonical (pre ++ rest)) (hpre : ∀ p ∈ pre, p.2 + 1 < v) :
    insert v (pre ++ rest) = pre ++ insertR v rest := by
  obtain ⟨lo, hi, h1, h2, h3⟩ := exists_bounds (pre ++ rest) v
  exact insertChk_erase (insertChk_go h1 h2 rest pre hc h3 hpre)

theorem remove_go_plain {v : Int} {pre rest : List (Int × Int)}
    (hc : Canonical (pre ++ rest)) (hpre : ∀ p ∈ pre, NoMatch v p) :
    remove v (pre ++ rest) = pre ++ removeR v rest := by
  obtain ⟨lo, hi, h1, h2, h3⟩ := exists_bounds (pre ++ rest) v
  exact removeChk_erase (removeChk_go h1 h2 rest pre hc h3 hpre)

/-! ## Claim theorems -/

/-- C1: every set built from the empty set by any sequence of `insert`,
`remove` and `clear` operations satisfies the canonical-form invariant:
every entry has `start ≤ end`, consecutive entries satisfy
`end_i + 1 < start_{i+1}`, and the entries are sorted ascending by
`start`. -/
theorem claim_C1 {rs : List (Int × Int)} (h : Reachable rs) :
    Canonical rs ∧ rs.Chain' (fun a b => a.1 < b.1) := by
  have hcan : Canonical rs := by
    induction h with
    | empty => exact canonical_nil
    | ins v _ ih => exact insert_canonical ih
    | rem v _ ih => exact remove_canonical ih
    | clr _ _ => exact canonical_nil
  exact ⟨hcan, canonical_sorted rs hcan⟩

theorem claim_C1_witness :
    Canonical (insert 7 (remove 1 (insert 3 (insert 2 (clear (insert 5 [])))))) ∧
    (insert 7 (remove 1 (insert 3 (insert 2 (clear (insert 5
      ([] : List (Int × Int)))))))).Chain' (fun a b => a.1 < b.1) :=
  claim_C1 (.ins 7 (.rem 1 (.ins 3 (.ins 2 (.clr (.ins 5 .empty))))))

/-- C3: immediately after `insert v`, `contains v` returns true, for any
canonical set. -/
theorem claim_C3 (v : Int) (rs : List (Int × Int)) (hc : Canonical rs) :
    contains v (insert v rs) = true := by
  rw [insert_contains hc]
  simp

theorem claim_C3_witness :
    contains 4 (insert 4 [((0 : Int), (2 : Int))]) = true :=
  claim_C3 4 [(0, 2)] (by decide)

/-- C4: immediately after `remove v`, `contains v` returns false, for any
canonical set. -/
theorem claim_C4 (v : Int) (rs : List (Int × Int)) (hc : Canonical rs) :
    contains v (remove v rs) = false := by
  rw [remove_contains hc]
  simp

theorem claim_C4_witness :
    contains 1 (remove 1 [((0 : Int), (3 : Int))]) = false :=
  claim_C4 1 [(0, 3)] (by decide)

/-- C5: on a canonical set, `insert` of a present value and `remove` of an
absent value leave the range list unchanged. -/
theorem claim_C5 (v : Int) (rs : List (Int × Int)) (hc : Canonical rs) :
    (contains v rs = true → insert v rs = rs) ∧
    (contains v rs = false → remove v rs = rs) := by
  constructor
  · intro hv
    apply canonical_ext _ _ (insert_canonical hc) hc
    intro w
    rw [insert_contains hc]
    by_cases hw : w = v
    · subst hw
      simp [hv]
    · simp [hw]
  · intro hv
    apply canonical_ext _ _ (remove_canonical hc) hc
    intro w
    rw [remove_contains hc]
    by_cases hw : w = v
    · subst hw
      simp [hv]
    · simp [hw]

theorem claim_C5_witness :
    (contains 2 [((0 : Int), (3 : Int))] = true →
      insert 2 [((0 : Int), (3 : Int))] = [((0 : Int), (3 : Int))]) ∧
    (contains 2 [((0 : Int), (3 : Int))] = false →
      remove 2 [((0 : Int), (3 : Int))] = [((0 : Int), (3 : Int))]) :=
  claim_C5 2 [(0, 3)] (by decide)

/-- C6 (amended): in a canonical set with consecutive entries
`(s1, e1)` and `(s2, e2)`, when the gap holds exactly one value
(`e1 + 2 = s2`), inserting that value coalesces the two entries into
`(s1, e2)`; a value of a larger gap that is adjacent to neither boundary
(`e1 + 1 < v` and `v + 1 < s2`) becomes a new unmerged singleton between
them.  (The original claim, that every value of a larger gap produces a new
singleton, is refuted by `claim_C6_counterexample`: a gap value adjacent to
a neighboring entry extends that entry instead.) -/
theorem claim_C6 (pre suf : List (Int × Int)) (s1 e1 s2 e2 v : Int)
    (hc : Canonical (pre ++ (s1, e1) :: (s2, e2) :: suf)) :
    (e1 + 2 = s2 →
      insert (e1 + 1) (pre ++ (s1, e1) :: (s2, e2) :: suf) =
        pre ++ (s1, e2) :: suf) ∧
    (e1 + 1 < v → v + 1 < s2 →
      insert v (pre ++ (s1, e1) :: (s2, e2) :: suf) =
        pre ++ (s1, e1) :: (v, v) :: (s2, e2) :: suf) := by
  have hs1e1 : s1 ≤ e1 := by
    have := hc.1 (s1, e1) (by simp)
    simpa using this
  have hgap : e1 + 1 < s2 := by
    have h := canonical_gap_head s1 e1 (canonical_append_right hc) (s2, e2)
      (by simp)
    simpa using h
  have hmid : ∀ p ∈ pre, p.2 + 1 < s1 :=
    canonical_append_mid pre (by simpa using hc)
  constructor
  · intro hg1
    rw [insert_go_plain hc (by intro p hp; have := hmid p hp; omega)]
    rw [insertR_exthi_merge suf (by omega) (by omega) (by omega) rfl
      (by omega)]
  · intro hv1 hv2
    rw [insert_go_plain hc (by intro p hp; have := hmid p hp; omega)]
    rw [insertR_skip ((s2, e2) :: suf) (by omega) (by omega) (by omega)
      (by omega)]
    rw [insertR_new e2 suf hv2]

theorem claim_C6_witness :
    ((0 : Int) + 2 = 4 →
      insert ((0 : Int) + 1) [((0 : Int), (0 : Int)), (4, 4)] =
        [((0 : Int), (4 : Int))]) ∧
    ((0 : Int) + 1 < 2 → (2 : Int) + 1 < 4 →
      insert 2 [((0 : Int), (0 : Int)), (4, 4)] =
        [((0 : Int), (0 : Int)), (2, 2), (4, 4)]) :=
  claim_C6 [] [] 0 0 4 4 2 (by decide)

/-- C6, original second half refuted: `[(0,0),(4,4)]` is canonical and its
gap holds the three values 1, 2, 3 (more than one), yet `insert 1` extends
the entry `(0,0)` to `(0,1)` instead of producing the new unmerged
singleton list `[(0,0),(1,1),(4,4)]`. -/
theorem claim_C6_counterexample :
    Canonical [((0 : Int), (0 : Int)), (4, 4)] ∧
    (0 : Int) + 1 < 4 - 1 ∧
    insert 1 [((0 : Int), (0 : Int)), (4, 4)] = [(0, 1), (4, 4)] ∧
    insert 1 [((0 : Int), (0 : Int)), (4, 4)] ≠ [(0, 0), (1, 1), (4, 4)] := by
  refine ⟨by decide, by decide, by decide, by decide⟩

/-- C7: on a canonical set containing an entry `(s, e)` with
`s < v < e`, `remove v` splits that entry in place into `(s, v-1)` and
`(v+1, e)`, leaving all other entries unchanged; in particular removing 1
from `[(0,3)]` yields `[(0,0),(2,3)]`. -/
theorem claim_C7 (pre suf : List (Int × Int)) (s e v : Int)
    (hc : Canonical (pre ++ (s, e) :: suf)) (h1 : s < v) (h2 : v < e) :
    remove v (pre ++ (s, e) :: suf) =
      pre ++ (s, v - 1) :: (v + 1, e) :: suf ∧
    remove 1 [((0 : Int), (3 : Int))] = [(0, 0), (2, 3)] := by
  refine ⟨?_, by decide⟩
  have hmid : ∀ p ∈ pre, p.2 + 1 < s :=
    canonical_append_mid pre hc
  have hnm : ∀ p ∈ pre, NoMatch v p := by
    intro p hp
    have hg := hmid p hp
    have hp12 : p.1 ≤ p.2 := hc.1 p (List.mem_append_left _ hp)
    exact ⟨by omega, by omega, by omega⟩
  rw [remove_go_plain hc hnm,
    removeR_split suf (by omega) (by omega) ⟨h1, h2⟩]

theorem claim_C7_witness :
    remove 5 [((1 : Int), (2 : Int)), (4, 8)] =
      [((1 : Int), (2 : Int)), (4, 4), (6, 8)] ∧
    remove 1 [((0 : Int), (3 : Int))] = [(0, 0), (2, 3)] :=
  claim_C7 [(1, 2)] [] 4 8 5 (by decide) (by decide) (by decide)

/-- C10: on a canonical set whose bounds all lie in the scalar domain
`[lo, hi]`, inserting or removing a value of the domain never computes the
successor of `hi` nor the predecessor of `lo`: the checked-arithmetic
variants of `insert` and `remove` (which fail on exactly those
computations) succeed and return the same result as the unchecked code. -/
theorem claim_C10 (lo hi v : Int) (rs : List (Int × Int))
    (hc : Canonical rs) (hb : InBounds lo hi rs)
    (h1 : lo ≤ v) (h2 : v ≤ hi) :
    insertChk lo hi v rs = some (insert v rs) ∧
    removeChk lo hi v rs = some (remove v rs) :=
  ⟨insertChk_eq_insert hc hb h1 h2, removeChk_eq_remove hc hb h1 h2⟩

theorem claim_C10_witness :
    insertChk 0 255 10 [((0 : Int), (3 : Int)), (9, 9)] =
      some (insert 10 [((0 : Int), (3 : Int)), (9, 9)]) ∧
    removeChk 0 255 10 [((0 : Int), (3 : Int)), (9, 9)] =
      some (remove 10 [((0 : Int), (3 : Int)), (9, 9)]) :=
  claim_C10 0 255 10 [(0, 3), (9, 9)] (by decide) (by decide) (by decide)
    (by decide)

/-! ## The element list `elems` -/

theorem intRange_nil {s e : Int} (h : e < s) : intRange s e = [] := by
  unfold intRange
  have h1 : (e + 1 - s).toNat = 0 := by omega
  rw [h1]
  simp

theorem mem_intRange {s e w : Int} : w ∈ intRange s e ↔ s ≤ w ∧ w ≤ e := by
  unfold intRange
  simp only [List.mem_map, List.mem_range]
  constructor
  · rintro ⟨k, hk, rfl⟩
    omega
  · rintro ⟨h1, h2⟩
    exact ⟨(w - s).toNat, by omega, by omega⟩

theorem intRange_cons {s e : Int} (h : s ≤ e) :
    intRange s e = s :: intRange (s + 1) e := by
  unfold intRange
  have h1 : (e + 1 - s).toNat = (e + 1 - (s + 1)).toNat + 1 := by omega
  rw [h1, List.range_succ_eq_map, List.map_cons, List.map_map]
  congr 1
  · show s + ((0 : Nat) : Int) = s
    simp
  · apply List.map_congr_left
    intro k _
    show s + ((Nat.succ k : Nat) : Int) = s + 1 + (k : Int)
    push_cast
    ring

theorem intRange_length {s e : Int} :
    (intRange s e).length = (e + 1 - s).toNat := by
  unfold intRange
  simp

theorem intRange_chain (s e : Int) : (intRange s e).Chain' (· < ·) := by
  rw [List.chain'_iff_pairwise]
  unfold intRange
  rw [List.pairwise_map]
  apply List.Pairwise.imp ?_ (List.pairwise_lt_range _)
  intro a b hab
  show s + (a : Int) < s + (b : Int)
  omega

theorem mem_elems {w : Int} :
    ∀ rs : List (Int × Int), w ∈ elems rs ↔ ∃ p ∈ rs, p.1 ≤ w ∧ w ≤ p.2 := by
  intro rs
  induction rs with
  | nil => simp [elems]
  | cons p t ih =>
    simp only [elems, List.mem_append, mem_intRange, ih, List.mem_cons]
    constructor
    · rintro (h | ⟨q, hq, h1, h2⟩)
      · exact ⟨p, Or.inl rfl, h.1, h.2⟩
      · exact ⟨q, Or.inr hq, h1, h2⟩
    · rintro ⟨q, hq | hq, h1, h2⟩
      · exact Or.inl ⟨hq ▸ h1, hq ▸ h2⟩
      · exact Or.inr ⟨q, hq, h1, h2⟩

theorem mem_elems_contains {w : Int} {rs : List (Int × Int)} :
    w ∈ elems rs ↔ contains w rs = true := by
  rw [mem_elems rs, contains_eq_true_iff]

theorem elems_chain :
    ∀ rs : List (Int × Int), Canonical rs → (elems rs).Chain' (· < ·) := by
  intro rs
  induction rs with
  | nil => intro _; simp [elems]
  | cons p t ih =>
    obtain ⟨s, e⟩ := p
    intro hc
    have hse : s ≤ e := by simpa using canonical_head_le_snd hc
    have ht : Canonical t := canonical_tail hc
    have hgaps : ∀ q ∈ t, e + 1 < q.1 := canonical_gap_head s e hc
    show (intRange s e ++ elems t).Chain' (· < ·)
    rw [List.chain'_append]
    refine ⟨intRange_chain s e, ih ht, ?_⟩
    intro x hx y hy
    have hx2 : x ∈ intRange s e := List.mem_of_mem_getLast? hx
    have hy2 : y ∈ elems t := List.mem_of_mem_head? hy
    have hx3 := mem_intRange.1 hx2
    obtain ⟨q, hq, hy3, _⟩ := (mem_elems t).1 hy2
    have := hgaps q hq
    omega

theorem elems_nodup {rs : List (Int × Int)} (hc : Canonical rs) :
    (elems rs).Nodup := by
  have h := elems_chain rs hc
  rw [List.chain'_iff_pairwise] at h
  exact h.imp (fun hab => ne_of_lt hab)

theorem len_shift :
    ∀ (rs : List (Int × Int)) (acc : Int),
      rs.foldl (fun a p => a + (p.2 - p.1 + 1)) acc = acc + len rs := by
  intro rs
  induction rs with
  | nil => intro acc; simp [len]
  | cons p t ih =>
    intro acc
    show t.foldl _ (acc + (p.2 - p.1 + 1)) = acc + len (p :: t)
    rw [ih]
    have h2 : len (p :: t) = (p.2 - p.1 + 1) + len t := by
      show t.foldl _ ((0 : Int) + (p.2 - p.1 + 1)) = _
      rw [ih]
      ring
    rw [h2]
    ring

theorem len_eq_length :
    ∀ rs : List (Int × Int), Canonical rs →
      len rs = ((elems rs).length : Int) := by
  intro rs
  induction rs with
  | nil => intro _; simp [len, elems]
  | cons p t ih =>
    intro hc
    have hse : p.1 ≤ p.2 := canonical_head_le_snd hc
    have h1 : len (p :: t) = (p.2 - p.1 + 1) + len t := by
      show t.foldl _ ((0 : Int) + (p.2 - p.1 + 1)) = _
      rw [len_shift]
      ring
    rw [h1, ih (canonical_tail hc)]
    show _ = ((intRange p.1 p.2 ++ elems t).length : Int)
    rw [List.length_append, intRange_length]
    push_cast
    omega

/-- C9: the derived `length` of the set (modelled from the spec, since
`RBSet::len` is called by the fuzz harness but absent from the library
source) equals the number of distinct members: `elems` enumerates each
member exactly once (no duplicates), membership in `elems` coincides with
`contains`, and `len` — the sum over entries of `end − start + 1` —
equals the length of that enumeration. -/
theorem claim_C9 (rs : List (Int × Int)) (hc : Canonical rs) :
    len rs = ((elems rs).length : Int) ∧ (elems rs).Nodup ∧
    (∀ w : Int, w ∈ elems rs ↔ contains w rs = true) :=
  ⟨len_eq_length rs hc, elems_nodup hc, fun _ => mem_elems_contains⟩

theorem claim_C9_witness :
    len [((0 : Int), (3 : Int)), (7, 8)] =
      ((elems [((0 : Int), (3 : Int)), (7, 8)]).length : Int) ∧
    (elems [((0 : Int), (3 : Int)), (7, 8)]).Nodup ∧
    (∀ w : Int, w ∈ elems [((0 : Int), (3 : Int)), (7, 8)] ↔
      contains w [((0 : Int), (3 : Int)), (7, 8)] = true) :=
  claim_C9 [(0, 3), (7, 8)] (by decide)

/-! ## The iterator simulation -/

theorem next_stop {it : Iter} (h : it.ranges.length ≤ it.pos) :
    it.next = (none, it) := by
  unfold Iter.next
  rw [if_pos (by omega : it.pos ≥ it.ranges.length)]

theorem next_fresh {it : Iter} (h : it.pos < it.ranges.length)
    (h2 : it.lastYielded = none) :
    it.next = (some (it.ranges.getD 0 (0, 0)).1,
      ⟨it.ranges, it.pos, some (it.ranges.getD 0 (0, 0)).1⟩) := by
  simp only [Iter.next, h2]
  rw [if_neg (by omega : ¬(it.pos ≥ it.ranges.length))]

theorem next_mid {it : Iter} {x : Int} (h : it.pos < it.ranges.length)
    (h2 : it.lastYielded = some x)
    (h3 : ¬(x = (it.ranges.getD it.pos (0, 0)).2)) :
    it.next = (some (x + 1), ⟨it.ranges, it.pos, some (x + 1)⟩) := by
  simp only [Iter.next, h2]
  rw [if_neg (by omega : ¬(it.pos ≥ it.ranges.length)), if_neg h3]

theorem next_hop {it : Iter} {x : Int} (h : it.pos < it.ranges.length)
    (h2 : it.lastYielded = some x)
    (h3 : x = (it.ranges.getD it.pos (0, 0)).2)
    (h4 : it.pos + 1 < it.ranges.length) :
    it.next = (some (it.ranges.getD (it.pos + 1) (0, 0)).1,
      ⟨it.ranges, it.pos + 1, some (it.ranges.getD (it.pos + 1) (0, 0)).1⟩) := by
  simp only [Iter.next, h2]
  rw [if_neg (by omega : ¬(it.pos ≥ it.ranges.length)), if_pos h3, if_pos h4]

theorem next_last {it : Iter} {x : Int} (h : it.pos < it.ranges.length)
    (h2 : it.lastYielded = some x)
    (h3 : x = (it.ranges.getD it.pos (0, 0)).2)
    (h4 : ¬(it.pos + 1 < it.ranges.length)) :
    it.next = (none, ⟨it.ranges, it.pos + 1, some x⟩) := by
  simp only [Iter.next, h2]
  rw [if_neg (by omega : ¬(it.pos ≥ it.ranges.length)), if_pos h3, if_neg h4]

theorem iterInv_next_nil {it : Iter} (h : IterInv it []) :
    it.next.1 = none ∧ IterInv it.next.2 [] := by
  rcases h with ⟨h1, h2, h3, h4⟩ | ⟨x, h1, h2, h3, h4, h5, h6⟩ | ⟨h1, _⟩
  · cases hr : it.ranges with
    | nil =>
      have hstop : it.ranges.length ≤ it.pos := by rw [hr]; simp
      rw [next_stop hstop]
      exact ⟨rfl, Or.inr (Or.inr ⟨hstop, rfl⟩)⟩
    | cons p t2 =>
      exfalso
      have hp : p.1 ≤ p.2 := by
        rw [hr] at h3
        exact canonical_head_le_snd h3
      have hmem : p.1 ∈ elems it.ranges := by
        rw [hr, mem_elems]
        exact ⟨p, by simp, le_refl _, hp⟩
      rw [← h4] at hmem
      simp at hmem
  · have hx : x = (it.ranges.getD it.pos (0, 0)).2 := by
      by_contra hne
      have hmem : x + 1 ∈ intRange (x + 1) (it.ranges.getD it.pos (0, 0)).2 :=
        mem_intRange.2 ⟨le_refl _, by omega⟩
      have h7 : x + 1 ∈ ([] : List Int) := by
        rw [h6]
        exact List.mem_append_left _ hmem
      simp at h7
    have hdrop : it.ranges.length ≤ it.pos + 1 := by
      by_contra hlt2
      push_neg at hlt2
      cases hd : it.ranges.drop (it.pos + 1) with
      | nil =>
        have := congrArg List.length hd
        simp at this
        omega
      | cons q t2 =>
        have hq : q ∈ it.ranges := by
          have hq0 : q ∈ it.ranges.drop (it.pos + 1) := by rw [hd]; simp
          exact List.mem_of_mem_drop hq0
        have hq2 : q.1 ≤ q.2 := h2.1 q hq
        have hmem : q.1 ∈ elems (it.ranges.drop (it.pos + 1)) := by
          rw [hd, mem_elems]
          exact ⟨q, by simp, le_refl _, hq2⟩
        have h7 : q.1 ∈ ([] : List Int) := by
          rw [h6]
          exact List.mem_append_right _ hmem
        simp at h7
    rw [next_last h3 h1 hx (by omega)]
    exact ⟨rfl, Or.inr (Or.inr ⟨hdrop, rfl⟩)⟩
  · rw [next_stop h1]
    exact ⟨rfl, Or.inr (Or.inr ⟨h1, rfl⟩)⟩

theorem iterInv_next_cons {it : Iter} {t : Int} {ts : List Int}
    (h : IterInv it (t :: ts)) :
    it.next.1 = some t ∧ IterInv it.next.2 ts := by
  rcases h with ⟨h1, h2, h3, h4⟩ | ⟨x, h1, h2, h3, h4, h5, h6⟩ | ⟨_, h2⟩
  · cases hr : it.ranges with
    | nil =>
      exfalso
      rw [hr] at h4
      simp [elems] at h4
    | cons p t2 =>
      obtain ⟨s, e⟩ := p
      have hse : s ≤ e := by
        rw [hr] at h3
        simpa using canonical_head_le_snd h3
      have h4b : t :: ts = intRange s e ++ elems t2 := by
        rw [hr] at h4
        exact h4
      rw [intRange_cons hse, List.cons_append] at h4b
      have ht : t = s := by
        injection h4b
      have hts : ts = intRange (s + 1) e ++ elems t2 := by
        injection h4b with hh htail
      have hlen : it.pos < it.ranges.length := by
        rw [h2, hr]
        simp
      have hg0 : it.ranges.getD 0 (0, 0) = (s, e) := by
        rw [hr, List.getD_cons_zero]
      rw [next_fresh hlen h1]
      refine ⟨by rw [hg0, ht], ?_⟩
      refine Or.inr (Or.inl ⟨(it.ranges.getD 0 (0, 0)).1, rfl, h3, ?_, ?_, ?_, ?_⟩)
      · show it.pos < it.ranges.length
        exact hlen
      · show (it.ranges.getD it.pos (0, 0)).1 ≤ (it.ranges.getD 0 (0, 0)).1
        rw [h2]
      · show (it.ranges.getD 0 (0, 0)).1 ≤ (it.ranges.getD it.pos (0, 0)).2
        rw [h2, hg0]
        exact hse
      · show ts = intRange ((it.ranges.getD 0 (0, 0)).1 + 1)
            (it.ranges.getD it.pos (0, 0)).2 ++
          elems (it.ranges.drop (it.pos + 1))
        rw [h2, hg0, hts, hr]
        simp
  · by_cases hx : x = (it.ranges.getD it.pos (0, 0)).2
    · -- end of the current entry: hop to the next one
      rw [intRange_nil (by omega), List.nil_append] at h6
      have hlt : it.pos + 1 < it.ranges.length := by
        by_contra hge
        rw [List.drop_eq_nil_of_le (by omega)] at h6
        simp [elems] at h6
      cases hd : it.ranges.drop (it.pos + 1) with
      | nil =>
        exfalso
        have := congrArg List.length hd
        simp at this
        omega
      | cons q t2 =>
        obtain ⟨s2, e2⟩ := q
        have hq : (s2, e2) ∈ it.ranges :=
          List.mem_of_mem_drop (by rw [hd]; simp)
        have hs2e2 : s2 ≤ e2 := by simpa using h2.1 (s2, e2) hq
        have hgd : it.ranges.getD (it.pos + 1) (0, 0) = (s2, e2) := by
          rw [List.getD_eq_getElem _ _ hlt]
          have hg2 : (it.ranges.drop (it.pos + 1)).get ⟨0, by rw [hd]; simp⟩ =
              (s2, e2) := by
            rw [List.get_of_eq hd]
            rfl
          rw [← hg2]
          simp [List.getElem_drop]
        rw [hd] at h6
        have h6b : t :: ts = s2 :: (intRange (s2 + 1) e2 ++ elems t2) := by
          rw [h6]
          show elems ((s2, e2) :: t2) = _
          show intRange s2 e2 ++ elems t2 = _
          rw [intRange_cons hs2e2, List.cons_append]
        have ht : t = s2 := by injection h6b
        have hts : ts = intRange (s2 + 1) e2 ++ elems t2 := by
          injection h6b with hh htail
        rw [next_hop h3 h1 hx hlt]
        refine ⟨by rw [hgd, ht], ?_⟩
        refine Or.inr (Or.inl ⟨(it.ranges.getD (it.pos + 1) (0, 0)).1, rfl, h2,
          ?_, ?_, ?_, ?_⟩)
        · show it.pos + 1 < it.ranges.length
          exact hlt
        · exact le_refl _
        · show (it.ranges.getD (it.pos + 1) (0, 0)).1 ≤
            (it.ranges.getD (it.pos + 1) (0, 0)).2
          rw [hgd]
          exact hs2e2
        · show ts = intRange ((it.ranges.getD (it.pos + 1) (0, 0)).1 + 1)
              (it.ranges.getD (it.pos + 1) (0, 0)).2 ++
            elems (it.ranges.drop (it.pos + 1 + 1))
          rw [hgd, hts]
          have hd2 : it.ranges.drop (it.pos + 1 + 1) = t2 := by
            have := congrArg (List.drop 1) hd
            rw [List.drop_drop] at this
            simpa using this
          rw [hd2]
    · -- strictly inside the current entry: yield x + 1
      have hxe : x < (it.ranges.getD it.pos (0, 0)).2 := by omega
      rw [intRange_cons (by omega), List.cons_append] at h6
      have ht : t = x + 1 := by injection h6
      have hts : ts = intRange (x + 1 + 1) (it.ranges.getD it.pos (0, 0)).2 ++
          elems (it.ranges.drop (it.pos + 1)) := by
        injection h6 with hh htail
      rw [next_mid h3 h1 hx]
      refine ⟨by rw [ht], ?_⟩
      refine Or.inr (Or.inl ⟨x + 1, rfl, h2, h3, ?_, ?_, hts⟩)
      · show (it.ranges.getD it.pos (0, 0)).1 ≤ x + 1
        omega
      · show x + 1 ≤ (it.ranges.getD it.pos (0, 0)).2
        omega
  · -- exhausted iterator cannot yield
    exfalso
    simp at h2

theorem runIter_of_inv :
    ∀ (n : Nat) (it : Iter) (target : List Int),
      IterInv it target → runIter it n = target.take n := by
  intro n
  induction n with
  | zero => intro it target _; simp [runIter]
  | succ n ih =>
    intro it target h
    cases target with
    | nil =>
      have h2 := iterInv_next_nil h
      cases hn : it.next with
      | mk o it2 =>
        have ho : o = none := by
          have := h2.1
          rw [hn] at this
          exact this
        subst ho
        simp [runIter, hn]
    | cons t ts =>
      have h2 := iterInv_next_cons h
      cases hn : it.next with
      | mk o it2 =>
        have ho : o = some t := by
          have := h2.1
          rw [hn] at this
          exact this
        subst ho
        have hinv : IterInv it2 ts := by
          have := h2.2
          rw [hn] at this
          exact this
        simp only [runIter, hn]
        rw [ih it2 ts hinv, List.take_succ_cons]

theorem stepN_of_inv :
    ∀ (n : Nat) (it : Iter) (target : List Int),
      IterInv it target → IterInv (stepN it n) (target.drop n) := by
  intro n
  induction n with
  | zero => intro it target h; simpa [stepN] using h
  | succ n ih =>
    intro it target h
    cases target with
    | nil =>
      have h2 := iterInv_next_nil h
      show IterInv (stepN it.next.2 n) _
      have := ih it.next.2 [] h2.2
      simpa using this
    | cons t ts =>
      have h2 := iterInv_next_cons h
      show IterInv (stepN it.next.2 n) _
      have := ih it.next.2 ts h2.2
      simpa using this

/-- C8: for a canonical set, running the element iterator yields exactly the
expansion `elems` of the range list — so exactly `len` values, strictly
ascending, each satisfying `contains` — and once the last entry's end has
been yielded, every further `next` call returns `none`. -/
theorem claim_C8 (rs : List (Int × Int)) (hc : Canonical rs) :
    (∀ n : Nat, runIter (iter rs) n = (elems rs).take n) ∧
    len rs = ((elems rs).length : Int) ∧
    (elems rs).Chain' (· < ·) ∧
    (∀ w ∈ elems rs, contains w rs = true) ∧
    (∀ n : Nat, (elems rs).length ≤ n → (stepN (iter rs) n).next.1 = none) := by
  have hinv : IterInv (iter rs) (elems rs) := Or.inl ⟨rfl, rfl, hc, rfl⟩
  refine ⟨fun n => runIter_of_inv n _ _ hinv, len_eq_length rs hc,
    elems_chain rs hc, fun w hw => mem_elems_contains.1 hw, ?_⟩
  intro n hn
  have h := stepN_of_inv n _ _ hinv
  rw [List.drop_eq_nil_of_le hn] at h
  exact (iterInv_next_nil h).1

theorem claim_C8_witness :
    (∀ n : Nat, runIter (iter [((0 : Int), (1 : Int)), (3, 3)]) n =
      (elems [((0 : Int), (1 : Int)), (3, 3)]).take n) ∧
    len [((0 : Int), (1 : Int)), (3, 3)] =
      ((elems [((0 : Int), (1 : Int)), (3, 3)]).length : Int) ∧
    (elems [((0 : Int), (1 : Int)), (3, 3)]).Chain' (· < ·) ∧
    (∀ w ∈ elems [((0 : Int), (1 : Int)), (3, 3)],
      contains w [((0 : Int), (1 : Int)), (3, 3)] = true) ∧
    (∀ n : Nat, (elems [((0 : Int), (1 : Int)), (3, 3)]).length ≤ n →
      (stepN (iter [((0 : Int), (1 : Int)), (3, 3)]) n).next.1 = none) :=
  claim_C8 [(0, 1), (3, 3)] (by decide)

/-! ## `consecutive_slices` computes the structural grouping `csR` -/

theorem csGo_nil (s last : Int) : csGo s last [] = [(s, last)] := rfl

theorem csGo_cons_merge {last y : Int} (s : Int) (ys : List Int)
    (h : last + 1 = y) : csGo s last (y :: ys) = csGo s y ys := by
  simp only [csGo]
  rw [if_pos h]

theorem csGo_cons_brk {last y : Int} (s : Int) (ys : List Int)
    (h : ¬(last + 1 = y)) :
    csGo s last (y :: ys) = (s, last) :: csGo y y ys := by
  simp only [csGo]
  rw [if_neg h]

theorem csLoop_eq (data : List Int) :
    ∀ (n i ss : Nat) (res : List (Int × Int)),
      data.length - i = n → 1 ≤ i → i ≤ data.length → ss < i →
      (csLoop data i ss res).2 ++
        [(data.getD (csLoop data i ss res).1 0,
          data.getD (data.length - 1) 0)] =
      res ++ csGo (data.getD ss 0) (data.getD (i - 1) 0) (data.drop i) := by
  intro n
  induction n with
  | zero =>
    intro i ss res hn h1 h2 hss
    have hi : i = data.length := by omega
    have hstop : ¬(i < data.length) := by omega
    rw [show csLoop data i ss res = (ss, res) from by
      unfold csLoop
      rw [dif_neg hstop]]
    rw [List.drop_eq_nil_of_le (by omega), csGo_nil, hi]
  | succ n ih =>
    intro i ss res hn h1 h2 hss
    have hlt : i < data.length := by omega
    have hdropf : data.drop i = data[i] :: data.drop (i + 1) :=
      List.drop_eq_getElem_cons hlt
    have hgdi : data.getD i 0 = data[i] := List.getD_eq_getElem data 0 hlt
    rw [show csLoop data i ss res =
        (if data.getD (i - 1) 0 + 1 ≠ data.getD i 0 then
          csLoop data (i + 1) i (res ++ [(data.getD ss 0, data.getD (i - 1) 0)])
        else csLoop data (i + 1) ss res) from by
      conv_lhs => unfold csLoop
      rw [dif_pos hlt]]
    by_cases hne : data.getD (i - 1) 0 + 1 ≠ data.getD i 0
    · rw [if_pos hne]
      rw [ih (i + 1) i (res ++ [(data.getD ss 0, data.getD (i - 1) 0)])
        (by omega) (by omega) (by omega) (by omega)]
      simp only [Nat.add_sub_cancel]
      rw [hdropf, csGo_cons_brk _ _ (by rw [← hgdi]; exact fun hx => hne hx),
        hgdi]
      simp [List.append_assoc]
    · rw [if_neg hne]
      push_neg at hne
      rw [ih (i + 1) ss res (by omega) (by omega) (by omega) (by omega)]
      simp only [Nat.add_sub_cancel]
      rw [hdropf, csGo_cons_merge _ _ (by rw [← hgdi]; exact hne), hgdi]

theorem consecutive_slices_eq_csR :
    ∀ data : List Int, consecutive_slices data = csR data := by
  intro data
  cases data with
  | nil =>
    have hl : csLoop ([] : List Int) 1 0 [] = (0, []) := by
      unfold csLoop
      rw [dif_neg (by simp)]
    simp [consecutive_slices, hl, csR]
  | cons x xs =>
    have h := csLoop_eq (x :: xs) ((x :: xs).length - 1) 1 0 [] (by simp)
      (le_refl 1) (by simp) (by omega)
    simp only [List.nil_append] at h
    rw [show consecutive_slices (x :: xs) =
        (csLoop (x :: xs) 1 0 []).2 ++
          [((x :: xs).getD (csLoop (x :: xs) 1 0 []).1 0,
            (x :: xs).getD ((x :: xs).length - 1) 0)] from by
      simp [consecutive_slices]]
    rw [h]
    simp [csR, List.getD_cons_zero]

theorem csGo_head :
    ∀ (l : List Int) (s last : Int), ∃ e2 t2, csGo s last l = (s, e2) :: t2 := by
  intro l
  induction l with
  | nil => intro s last; exact ⟨last, [], rfl⟩
  | cons y ys ih =>
    intro s last
    by_cases hm : last + 1 = y
    · rw [csGo_cons_merge s ys hm]
      exact ih s y
    · rw [csGo_cons_brk s ys hm]
      exact ⟨last, csGo y y ys, rfl⟩

theorem csGo_canonical :
    ∀ (l : List Int) (s last : Int), s ≤ last →
      (last :: l).Chain' (· < ·) → Canonical (csGo s last l) := by
  intro l
  induction l with
  | nil =>
    intro s last h _
    rw [csGo_nil]
    exact canonical_singleton h
  | cons y ys ih =>
    intro s last hsl hch
    obtain ⟨hlt, hch2⟩ := List.chain'_cons.1 hch
    by_cases hm : last + 1 = y
    · rw [csGo_cons_merge s ys hm]
      exact ih s y (by omega) hch2
    · rw [csGo_cons_brk s ys hm]
      rw [canonical_cons_iff]
      refine ⟨by simpa using hsl, ?_, ih y y (le_refl y) hch2⟩
      obtain ⟨e2, t2, heq⟩ := csGo_head ys y y
      rw [heq]
      simp only [List.head?_cons, Option.mem_def, Option.some.injEq]
      rintro q rfl
      show last + 1 < y
      omega

theorem csGo_contains :
    ∀ (l : List Int) (s last w : Int), s ≤ last →
      (last :: l).Chain' (· < ·) →
      (contains w (csGo s last l) = true ↔ (s ≤ w ∧ w ≤ last) ∨ w ∈ l) := by
  intro l
  induction l with
  | nil =>
    intro s last w h _
    rw [csGo_nil, contains_cons']
    simp [contains]
  | cons y ys ih =>
    intro s last w hsl hch
    obtain ⟨hlt, hch2⟩ := List.chain'_cons.1 hch
    by_cases hm : last + 1 = y
    · rw [csGo_cons_merge s ys hm, ih s y w (by omega) hch2]
      simp only [List.mem_cons]
      by_cases hw : w ∈ ys
      · simp [hw]
      · simp [hw]
        omega
    · rw [csGo_cons_brk s ys hm, contains_cons']
      rw [Bool.or_eq_true, decide_eq_true_eq, ih y y w (le_refl y) hch2]
      simp only [List.mem_cons]
      by_cases hw : w ∈ ys
      · simp [hw]
      · simp [hw]
        omega

theorem csR_canonical {l : List Int} (h : l.Chain' (· < ·)) :
    Canonical (csR l) := by
  cases l with
  | nil => exact canonical_nil
  | cons x xs =>
    show Canonical (csGo x x xs)
    exact csGo_canonical xs x x (le_refl x) h

theorem csR_contains {l : List Int} (h : l.Chain' (· < ·)) (w : Int) :
    contains w (csR l) = true ↔ w ∈ l := by
  cases l with
  | nil => simp [csR, contains]
  | cons x xs =>
    show contains w (csGo x x xs) = true ↔ _
    rw [csGo_contains xs x x w (le_refl x) h]
    simp only [List.mem_cons]
    by_cases hw : w ∈ xs
    · simp [hw]
    · simp [hw]
      omega

/-! ## The differential refinement -/

theorem apply_inv :
    ∀ (acts : List Action) (rs : List (Int × Int)) (fs : Finset Int),
      Canonical rs → (∀ w, contains w rs = true ↔ w ∈ fs) →
      Canonical (acts.foldl stepRB rs) ∧
      ∀ w, contains w (acts.foldl stepRB rs) = true ↔
        w ∈ acts.foldl stepRef fs := by
  intro acts
  induction acts with
  | nil =>
    intro rs fs h1 h2
    exact ⟨h1, h2⟩
  | cons a rest ih =>
    intro rs fs h1 h2
    simp only [List.foldl_cons]
    apply ih
    · cases a with
      | ins v => exact insert_canonical h1
      | rem v => exact remove_canonical h1
    · intro w
      cases a with
      | ins v =>
        show contains w (insert v rs) = true ↔ w ∈ Insert.insert v fs
        rw [insert_contains h1]
        rw [Bool.or_eq_true, decide_eq_true_eq, h2 w, Finset.mem_insert]
        tauto
      | rem v =>
        show contains w (remove v rs) = true ↔ w ∈ fs.erase v
        rw [remove_contains h1]
        rw [Bool.and_eq_true, decide_eq_true_eq, h2 w, Finset.mem_erase]
        tauto

/-- C2: for every sequence of insert/remove actions applied in parallel to
an `RBSet` (from empty) and to a reference set of elements, the resulting
range list equals `consecutive_slices` — the fuzz harness's grouping of the
reference set's sorted distinct elements into maximal consecutive runs.
Quantifying over all action lists covers every checkpoint of every
sequence. -/
theorem claim_C2 (acts : List Action) :
    applyRB acts = consecutive_slices (Finset.sort (· ≤ ·) (applyRef acts)) := by
  have h := apply_inv acts [] ∅ canonical_nil
    (by intro w; simp [contains])
  have hch : (Finset.sort (· ≤ ·) (applyRef acts)).Chain' (· < ·) := by
    rw [List.chain'_iff_pairwise]
    exact Finset.sort_sorted_lt _
  rw [consecutive_slices_eq_csR]
  apply canonical_ext _ _ h.1 (csR_canonical hch)
  intro w
  rw [Bool.eq_iff_iff]
  rw [h.2 w, csR_contains hch w, Finset.mem_sort]
  show w ∈ acts.foldl stepRef ∅ ↔ w ∈ applyRef acts
  exact Iff.rfl

end RBSet
